import Mathlib

/-!
Verification of the YAML-endpoints-to-Markdown table converter
(`script.py`).  The script is shallowly embedded: YAML values parsed by
the loader become the inductive type `Yaml`, the Python dictionaries
become insertion-ordered association lists, and every function of the
script is translated into an executable Lean definition.  Fallible
Python operations (a `TypeError` from comparing incomparable values, an
`AttributeError` from `.replace` on a non-string) are modelled with
`Option`.
-/

set_option maxHeartbeats 1000000

set_option maxRecDepth 4000

/-! ## Definitions -/

/-- A YAML value as produced by the loader.  Mappings are association
lists in insertion order with distinct keys, which is what the Python
`dict` built by the parser provides. -/
inductive Yaml where
  | null
  | bool (b : Bool)
  | int (n : Int)
  | str (s : String)
  | list (xs : List Yaml)
  | map (kvs : List (Yaml × Yaml))

/-- Is the value a mapping? (`isinstance(x, dict)`) -/
def Yaml.isMap : Yaml → Bool
  | .map _ => true
  | _ => false

/-- Is the value a string? (`isinstance(x, str)`) -/
def Yaml.isStr : Yaml → Bool
  | .str _ => true
  | _ => false

/-- Python truthiness (`bool(x)`) for loader-produced values. -/
def pyTruthy : Yaml → Bool
  | .null => false
  | .bool b => b
  | .int n => n != 0
  | .str s => !s.isEmpty
  | .list xs => !xs.isEmpty
  | .map kvs => !kvs.isEmpty

/-- The numeric value of a Python number, where `bool` is a subtype of
`int` (`True == 1`, `False == 0`). -/
def yamlNum : Yaml → Option Int
  | .bool b => some (if b then 1 else 0)
  | .int n => some n
  | _ => none

mutual
/-- Python equality `==` on loader-produced values: numbers compare by
value across `bool`/`int`, strings and lists structurally; `None` is
only equal to itself. -/
def pyEq : Yaml → Yaml → Bool
  | .null, .null => true
  | .str s, .str t => s == t
  | .list xs, .list ys => pyEqList xs ys
  | .map xs, .map ys => pyEqPairs xs ys
  | a, b =>
    match yamlNum a, yamlNum b with
    | some m, some n => m == n
    | _, _ => false

def pyEqList : List Yaml → List Yaml → Bool
  | [], [] => true
  | x :: xs, y :: ys => pyEq x y && pyEqList xs ys
  | _, _ => false

def pyEqPairs : List (Yaml × Yaml) → List (Yaml × Yaml) → Bool
  | [], [] => true
  | (k, v) :: xs, (k2, v2) :: ys => pyEq k k2 && pyEq v v2 && pyEqPairs xs ys
  | _, _ => false
end

/-- Code-point lexicographic comparison of character lists: the
comparison Python uses for `str < str`. -/
def charListCmp : List Char → List Char → Ordering
  | [], [] => .eq
  | [], _ :: _ => .lt
  | _ :: _, [] => .gt
  | a :: as, b :: bs =>
    if a.toNat < b.toNat then .lt
    else if b.toNat < a.toNat then .gt
    else charListCmp as bs

/-- Strict code-point order on strings (Python `str < str`), as a
Boolean. -/
def strLt (p q : String) : Bool :=
  charListCmp p.data q.data == .lt

mutual
/-- Python rich comparison on loader-produced values, `none` when the
values are incomparable (Python raises `TypeError`): numbers compare by
value (`bool` included), strings code-point lexicographically, lists
lexicographically element by element with the shorter prefix first. -/
def pyCompare : Yaml → Yaml → Option Ordering
  | .str s, .str t => some (charListCmp s.data t.data)
  | .list xs, .list ys => pyCompareList xs ys
  | a, b =>
    match yamlNum a, yamlNum b with
    | some m, some n => some (compare m n)
    | _, _ => none

def pyCompareList : List Yaml → List Yaml → Option Ordering
  | [], [] => some .eq
  | [], _ :: _ => some .lt
  | _ :: _, [] => some .gt
  | x :: xs, y :: ys =>
    if pyEq x y then pyCompareList xs ys
    else match pyCompare x y with
      | some .lt => some .lt
      | some .gt => some .gt
      | some .eq => pyCompareList xs ys
      | none => none
end

/-- Escape a character for Python `repr` of a string with the given
quote character. -/
def pyEscChar (quote : Char) (c : Char) : List Char :=
  if c = '\\' then ['\\', '\\']
  else if c = quote then ['\\', quote]
  else if c = '\n' then ['\\', 'n']
  else if c = '\x09' then ['\\', 't']
  else if c = '\x0d' then ['\\', 'r']
  else [c]

/-- Python `repr` of a string: single-quoted unless the string contains
a single quote and no double quote. -/
def pyReprStr (s : String) : String :=
  if s.data.contains '\x27' && !(s.data.contains '"') then
    String.mk ('"' :: (s.data.flatMap (pyEscChar '"') ++ ['"']))
  else
    String.mk ('\x27' :: (s.data.flatMap (pyEscChar '\x27') ++ ['\x27']))

mutual
/-- Python `repr` of a loader-produced value. -/
def pyRepr : Yaml → String
  | .null => "None"
  | .bool true => "True"
  | .bool false => "False"
  | .int n => toString n
  | .str s => pyReprStr s
  | .list xs => "[" ++ pyReprList xs ++ "]"
  | .map kvs => "\x7b" ++ pyReprPairs kvs ++ "\x7d"

def pyReprList : List Yaml → String
  | [] => ""
  | [x] => pyRepr x
  | x :: xs => pyRepr x ++ ", " ++ pyReprList xs

def pyReprPairs : List (Yaml × Yaml) → String
  | [] => ""
  | [(k, v)] => pyRepr k ++ ": " ++ pyRepr v
  | (k, v) :: kvs => pyRepr k ++ ": " ++ pyRepr v ++ ", " ++ pyReprPairs kvs
end

/-- Python `str` of a loader-produced value: identity on strings,
`repr`-like rendering otherwise. -/
def pyStr : Yaml → String
  | .str s => s
  | y => pyRepr y

/-- ASCII uppercasing of one character, as `str.upper` does on the
method tokens the script handles. -/
def charUpper (c : Char) : Char :=
  if 97 ≤ c.toNat && c.toNat ≤ 122 then Char.ofNat (c.toNat - 32) else c

/-- Model of `str.upper` on the character list of a string. -/
def pyUpper (s : String) : String :=
  String.mk (s.data.map charUpper)

/-- Python `dict.get(k, default)` on an insertion-ordered association
list with distinct keys. -/
def pyGetD (kvs : List (Yaml × Yaml)) (k : Yaml) (d : Yaml) : Yaml :=
  match kvs.find? (fun kv => pyEq kv.1 k) with
  | some kv => kv.2
  | none => d

/-- Python `sep.join(parts)`. -/
def pyJoin (sep : String) : List String → String
  | [] => ""
  | [p] => p
  | p :: ps => p ++ sep ++ pyJoin sep ps

/-- Map a fallible function over a list, failing as soon as one
element fails (the behaviour of a Python loop over fallible
operations). -/
def mapOpt (f : α → Option β) : List α → Option (List β)
  | [] => some []
  | x :: xs => do
    let y ← f x
    let ys ← mapOpt f xs
    some (y :: ys)

/-- Model of `METHOD_ORDER` from the script. -/
def METHOD_ORDER : List String :=
  ["GET", "POST", "PUT", "DELETE", "PATCH", "HEAD", "OPTIONS"]

/-- Model of `bool_to_yesno` from the script, applied to an already-computed
Python boolean. -/
def bool_to_yesno (val : Bool) : String :=
  if val then "Yes" else "No"

/-- The character replacement of `sanitize_code_span`: a literal
backtick becomes the prime character U+2032. -/
def sanChar (c : Char) : Char :=
  if c = '`' then '′' else c

/-- Model of `value.replace("\x60", "′")` on an actual string. -/
def sanitizeStr (s : String) : String :=
  String.mk (s.data.map sanChar)

/-- Model of `sanitize_code_span` from the script: `None` yields `""`, a string
has every backtick replaced by U+2032. -/
def sanitize_code_span : Option String → String
  | none => ""
  | some v => sanitizeStr v

/-- Model of `sanitize_code_span` applied to an arbitrary loader value, as the
renderer does: `None` yields `""`, a string is sanitized, and any other
value raises `AttributeError` (no `.replace`), modelled as `none`. -/
def sanitizeVal : Yaml → Option String
  | .null => some ""
  | .str s => some (sanitizeStr s)
  | _ => none

/-- The loop body of `normalize_locations` over a sequence: `None`
elements are dropped, every other element is coerced with `str` and
sanitized. -/
def locParts : List Yaml → List String
  | [] => []
  | .null :: ps => locParts ps
  | p :: ps => sanitizeStr (pyStr p) :: locParts ps

/-- Model of `normalize_locations` from the script. -/
def normalize_locations (loc : Yaml) : Option String :=
  match loc with
  | .null => none
  | .str s => some (sanitizeStr s)
  | .list xs =>
    let parts := locParts xs
    if parts.isEmpty then none else some (pyJoin ", " parts)
  | y => some (sanitizeStr (pyStr y))

/-- Model of `method_sort_key` from the script. -/
def method_sort_key (method : String) : Nat × String :=
  let m := pyUpper method
  match METHOD_ORDER.indexOf? m with
  | some i => (i, "")
  | none => (METHOD_ORDER.length, m)

/-- Model of `parse_yaml` from the script, applied to an already-loaded value:
anything but a top-level mapping is a `ValueError`. -/
def parse_yaml (data : Yaml) : Except String Yaml :=
  match data with
  | .map _ => .ok data
  | _ => .error "Top-level YAML must be a mapping of path -> metadata"

/-- One flat row, as the dict built by `build_rows`. -/
structure Row where
  path : Yaml
  method : String
  region_aware : Bool
  absolute : Bool
  owner : Yaml
  endpoint_name : Yaml
  backend_class : Yaml
  locations : Option String
  notes : Yaml

/-- Model of `sections.setdefault(name, []).append(row)`: append the row to the
bucket with the given name, creating the bucket at the end on first
use.  Bucket names are dict keys, so they are matched with `==`. -/
def addRow (secs : List (Yaml × List Row)) (name : Yaml) (r : Row) :
    List (Yaml × List Row) :=
  match secs with
  | [] => [(name, [r])]
  | (n, rs) :: rest =>
    if pyEq n name then (n, rs ++ [r]) :: rest
    else (n, rs) :: addRow rest name r

/-- The resolved `section` value of a path's metadata:
`meta.get("section")` when the metadata is a mapping, else `None`. -/
def endpointSection (meta : Yaml) : Yaml :=
  match meta with
  | .map kvs => pyGetD kvs (.str "section") .null
  | _ => .null

/-- Model of `endpoint_section or "Uncategorized"`. -/
def sectionNameOf (meta : Yaml) : Yaml :=
  let es := endpointSection meta
  if pyTruthy es then es else .str "Uncategorized"

/-- Model of `meta.get("methods") or \x7b\x7d` for mapping metadata, the initial
`\x7b\x7d` otherwise. -/
def methodsResolved (meta : Yaml) : Yaml :=
  match meta with
  | .map kvs =>
    let m := pyGetD kvs (.str "methods") .null
    if pyTruthy m then m else .map []
  | _ => .map []

/-- The warning printed when a path's `methods` is not a mapping. -/
def methodsWarning (path : Yaml) : String :=
  "Warning: skipping path " ++ pyRepr path ++
    " because \x27methods\x27 is not a mapping"

/-- The warning printed when a method's metadata is not a mapping. -/
def methodMetaWarning (path : Yaml) (method : String) : String :=
  "Warning: skipping " ++ pyRepr path ++ " " ++ method ++
    " because method metadata is not a mapping"

/-- The accumulating state of `build_rows`: the sections built so far
and the warnings printed to stderr so far. -/
abbrev BuildState := List (Yaml × List Row) × List String

/-- Model of `bool(meta.get("absolute", False))` for mapping metadata, the
initial `False` otherwise. -/
def absoluteOf (meta : Yaml) : Bool :=
  match meta with
  | .map kvs => pyTruthy (pyGetD kvs (.str "absolute") (.bool false))
  | _ => false

/-- Model of `meta.get("owner")` for mapping metadata, the initial `None`
otherwise. -/
def ownerOf (meta : Yaml) : Yaml :=
  match meta with
  | .map kvs => pyGetD kvs (.str "owner") .null
  | _ => .null

/-- Model of `meta.get("name")` for mapping metadata, the initial `None`
otherwise. -/
def enameOf (meta : Yaml) : Yaml :=
  match meta with
  | .map kvs => pyGetD kvs (.str "name") .null
  | _ => .null

/-- Model of `meta.get("class")` for mapping metadata, the initial `None`
otherwise. -/
def bclassOf (meta : Yaml) : Yaml :=
  match meta with
  | .map kvs => pyGetD kvs (.str "class") .null
  | _ => .null

/-- The row dict built for one valid (method, method-metadata) item. -/
def rowFor (path : Yaml) (absolute : Bool) (owner ename bclass : Yaml)
    (method_raw : Yaml) (mm : List (Yaml × Yaml)) : Row :=
  { path := path
    method := pyUpper (pyStr method_raw)
    region_aware := pyTruthy (pyGetD mm (.str "region_aware") (.bool false))
    absolute := absolute
    owner := owner
    endpoint_name := ename
    backend_class := bclass
    locations := normalize_locations (pyGetD mm (.str "locations") .null)
    notes :=
      let n := pyGetD mm (.str "notes") .null
      if pyTruthy n then n else Yaml.str "" }

/-- The body of the inner loop of `build_rows`, for one
`(method_raw, method_meta)` item of a path's `methods` mapping. -/
def processMethod (path secName : Yaml) (absolute : Bool)
    (owner ename bclass : Yaml) (acc : BuildState)
    (method_raw method_meta : Yaml) : BuildState :=
  match method_raw with
  | .null => acc
  | _ =>
    let method := pyUpper (pyStr method_raw)
    match method_meta with
    | .map mm =>
      (addRow acc.1 secName (rowFor path absolute owner ename bclass
        method_raw mm), acc.2)
    | _ => (acc.1, acc.2 ++ [methodMetaWarning path method])

/-- The body of the outer loop of `build_rows`, for one `(path, meta)`
item of the top-level document. -/
def processPath (acc : BuildState) (path meta : Yaml) : BuildState :=
  match methodsResolved meta with
  | .map mkvs =>
    mkvs.foldl
      (fun a kv => processMethod path (sectionNameOf meta) (absoluteOf meta)
        (ownerOf meta) (enameOf meta) (bclassOf meta) a kv.1 kv.2)
      acc
  | _ => (acc.1, acc.2 ++ [methodsWarning path])

/-- Model of `build_rows` from the script: the sections (an insertion-ordered
dict from section name to row list) together with the warnings printed
to stderr. -/
def build_rows (yaml_map : List (Yaml × Yaml)) : BuildState :=
  yaml_map.foldl (fun acc pm => processPath acc pm.1 pm.2) ([], [])

/-- Insert an element arriving later than everything in the already
sorted accumulator: it goes after every element it is not strictly
below.  This is the insertion step of a stable sort by the strict
comparison `lt`, which is the specification of Python `sorted`. -/
def pyInsert (lt : α → α → Bool) (x : α) : List α → List α
  | [] => [x]
  | y :: ys => if lt x y then x :: y :: ys else y :: pyInsert lt x ys

/-- Stable sort by the strict comparison `lt` (the behaviour of Python
`sorted` whenever `lt` is a strict weak order on the elements, which
the comparability guards below ensure). -/
def pySortAux (lt : α → α → Bool) (acc : List α) : List α → List α
  | [] => acc
  | x :: xs => pySortAux lt (pyInsert lt x acc) xs

/-- Python `sorted(l)` with strict comparison `lt`. -/
def pySort (lt : α → α → Bool) (l : List α) : List α :=
  pySortAux lt [] l

/-- The sort key of a row in `render_section`:
`(r["path"], method_sort_key(r["method"]))`. -/
def rowSortKey (r : Row) : Yaml × Nat × String :=
  (r.path, method_sort_key r.method)

/-- Python `<` on the `(int, str)` pairs produced by
`method_sort_key`. -/
def keyLt (a b : Nat × String) : Bool :=
  decide (a.1 < b.1) || (a.1 == b.1 && strLt a.2 b.2)

/-- Python `<` on two row sort keys: tuples compare component-wise,
testing `==` first and falling back to `<` on the first unequal
component. -/
def rowLt (r s : Row) : Bool :=
  if pyEq r.path s.path then
    keyLt (method_sort_key r.method) (method_sort_key s.method)
  else
    match pyCompare r.path s.path with
    | some .lt => true
    | _ => false

/-- Comparing two row sort keys cannot raise: either the paths are
equal, or they are comparable. -/
def rowCmpOk (r s : Row) : Bool :=
  pyEq r.path s.path || (pyCompare r.path s.path).isSome

/-- All ordered pairs of distinct positions satisfy `f`. -/
def allPairs (f : α → α → Bool) : List α → Bool
  | [] => true
  | x :: xs => xs.all (fun y => f x y) && allPairs f xs

/-- The row sort of `render_section`: `none` when Python's sort would
raise `TypeError` on incomparable paths. -/
def pySortRows (rows : List Row) : Option (List Row) :=
  if allPairs rowCmpOk rows then some (pySort rowLt rows) else none

/-- Python `<` on two section names. -/
def nameLt (a b : Yaml) : Bool :=
  pyCompare a b == some .lt

/-- Model of `sorted(section_names)`: `none` when Python's sort would raise
`TypeError` on incomparable names. -/
def pySortedNames (ns : List Yaml) : Option (List Yaml) :=
  if allPairs (fun a b => (pyCompare a b).isSome) ns then
    some (pySort nameLt ns)
  else none

/-- The header row literal of `render_section`. -/
def headerRow : String :=
  "| Path | Method | Region-aware | Absolute | Owner | Endpoint Name | Class (in backend) | Locations used (in CLI) | Notes |"

/-- The delimiter row literal of `render_section`. -/
def dividerRow : String :=
  "| ---- | ------ | ------------ | -------- | ----- | ------------- | ------------------- | ----------------------- | ----- |"

/-- A cell of the form ``f"`...`"`` around a sanitized value; fails
when sanitizing a non-string raises. -/
def codeCell (v : Yaml) : Option String :=
  (sanitizeVal v).map (fun s => "`" ++ s ++ "`")

/-- One of the owner / endpoint-name / backend-class cells: wrapped in
backticks when the stored value is truthy, empty otherwise. -/
def optCodeCell (v : Yaml) : Option String :=
  if pyTruthy v then codeCell v else some ""

/-- The locations cell: wrapped when the joined string is truthy. -/
def locationsCell (l : Option String) : String :=
  match l with
  | some s => if s.isEmpty then "" else "`" ++ s ++ "`"
  | none => ""

/-- The notes cell: `r.get("notes") or ""` interpolated into the
f-string. -/
def notesCell (n : Yaml) : String :=
  pyStr (if pyTruthy n then n else Yaml.str "")

/-- One data line of `render_section`. -/
def renderRowLine (r : Row) : Option String := do
  let path_cell ← codeCell r.path
  let method_cell := "`" ++ sanitizeStr r.method ++ "`"
  let region_cell := bool_to_yesno r.region_aware
  let absolute_cell := bool_to_yesno r.absolute
  let owner_cell ← optCodeCell r.owner
  let endpoint_cell ← optCodeCell r.endpoint_name
  let class_cell ← optCodeCell r.backend_class
  let locations_cell := locationsCell r.locations
  let notes_cell := notesCell r.notes
  some ("| " ++ path_cell ++ " | " ++ method_cell ++ " | " ++ region_cell ++
    " | " ++ absolute_cell ++ " | " ++ owner_cell ++ " | " ++ endpoint_cell ++
    " | " ++ class_cell ++ " | " ++ locations_cell ++ " | " ++ notes_cell ++ " |")

/-- Model of `render_section` from the script: `none` models an uncaught
exception (sort `TypeError` or sanitize `AttributeError`). -/
def render_section (sec : Yaml) (rows : List Row) : Option String := do
  let rows_sorted ← pySortRows rows
  let rowLines ← mapOpt renderRowLine rows_sorted
  some (pyJoin "\n" (["### " ++ pyStr sec, "", headerRow, dividerRow] ++ rowLines))

/-- Model of `sections[sec]` in the driver loop. -/
def sectionRows (secs : List (Yaml × List Row)) (n : Yaml) : List Row :=
  match secs.find? (fun s => pyEq s.1 n) with
  | some s => s.2
  | none => []

/-- The `out_parts` list built by the driver loop: an empty string is
appended before every section but the first. -/
def outParts : List String → List String
  | [] => []
  | [p] => [p]
  | p :: ps => p :: "" :: outParts ps

/-- Model of `output_text = "\n\n".join(out_parts) + "\n"`. -/
def output_text (parts : List String) : String :=
  pyJoin "\n\n" (outParts parts) ++ "\n"

/-- The section order the driver uses: insertion order under
`--no-sort`, `sorted(...)` otherwise. -/
def orderedNames (secs : List (Yaml × List Row)) (noSort : Bool) :
    Option (List Yaml) :=
  let names := secs.map (fun s => s.1)
  if noSort then some names else pySortedNames names

/-- The rendered section texts of one run, in output order; `none`
models an uncaught exception. -/
def pipelineParts (doc : List (Yaml × Yaml)) (noSort : Bool) :
    Option (List String) := do
  let secs := (build_rows doc).1
  let names ← orderedNames secs noSort
  mapOpt (fun n => render_section n (sectionRows secs n)) names

/-- The full output document of one successful run. -/
def pipelineOutput (doc : List (Yaml × Yaml)) (noSort : Bool) :
    Option String :=
  (pipelineParts doc noSort).map output_text

/-- Model of `main` from the script, with the external world abstracted: `load`
is `None` when reading the input fails, otherwise the result of
`yaml.safe_load` (`Except.error` when the YAML library raises), and
`writeOk` says whether writing the output succeeds.  The result is the
process exit status paired with the text written to the destination
(`none` when nothing is written). -/
def runMain (load : Option (Except String Yaml)) (noSort : Bool)
    (writeOk : Bool) : Nat × Option String :=
  match load with
  | none => (2, none)
  | some loadRes =>
    match loadRes.bind parse_yaml with
    | .error _ => (3, none)
    | .ok y =>
      match y with
      | .map kvs =>
        match pipelineOutput kvs noSort with
        | none => (1, none)
        | some out => if writeOk then (0, some out) else (4, none)
      | _ => (1, none)

/-- The composite `(path, method key)` order that the row sort realizes
when every path is a string. -/
def key3Lt (a b : String × Nat × String) : Bool :=
  strLt a.1 b.1 || (a.1 == b.1 && keyLt a.2 b.2)

/-- The path component of a row key (junk on non-strings; only used
under the hypothesis that paths are strings). -/
def pathStr : Yaml → String
  | .str s => s
  | _ => ""

/-- The composite sort key of a row with a string path. -/
def rowKey3 (r : Row) : String × Nat × String :=
  (pathStr r.path, method_sort_key r.method)

/-- The secondary (method) order stated by the spec: a method matching
the fixed priority list orders by its list position, every method
outside the list orders after all listed methods and code-point
lexicographically among the other unlisted methods. -/
def specMethodLE (m n : String) : Prop :=
  (m ∈ METHOD_ORDER ∧ n ∈ METHOD_ORDER ∧
    METHOD_ORDER.indexOf m ≤ METHOD_ORDER.indexOf n)
  ∨ (m ∈ METHOD_ORDER ∧ n ∉ METHOD_ORDER)
  ∨ (m ∉ METHOD_ORDER ∧ n ∉ METHOD_ORDER ∧ (m = n ∨ strLt m n = true))

/-- The row order stated by the spec: primary key the path string under
code-point comparison, secondary key the method under
`specMethodLE`. -/
def specRowLE (a b : Row) : Prop :=
  (∃ p q, a.path = .str p ∧ b.path = .str q ∧ strLt p q = true)
  ∨ (a.path = b.path ∧ specMethodLE a.method b.method)

/-- Two concrete rows used by the C3 witness. -/
def c3Rows : List Row :=
  [{ path := .str "/b", method := "GET", region_aware := false,
     absolute := false, owner := .null, endpoint_name := .null,
     backend_class := .null, locations := none, notes := .str "" },
   { path := .str "/a", method := "ZETA", region_aware := false,
     absolute := false, owner := .null, endpoint_name := .null,
     backend_class := .null, locations := none, notes := .str "" }]

/-- Is the value null? -/
def Yaml.isNull : Yaml → Bool
  | .null => true
  | _ => false

/-- The behaviour of `normalize_locations` as the specification states
it: null is absent, a single string is sanitized, a sequence drops the
null elements, sanitizes the string form of each remaining element and
joins with ", " (absent when the element list is empty), and any other
value is coerced to its string form and sanitized. -/
def normalize_locations_spec (loc : Yaml) : Option String :=
  match loc with
  | .null => none
  | .str s => some (sanitizeStr s)
  | .list xs =>
    let es := (xs.filter (fun p => !p.isNull)).map
      (fun p => sanitizeStr (pyStr p))
    if es = [] then none else some (pyJoin ", " es)
  | y => some (sanitizeStr (pyStr y))

/-- Key-distinctness of the section association list (the dict
invariant). -/
def KeysDistinct (secs : List (Yaml × List Row)) : Prop :=
  secs.Pairwise (fun a b => pyEq a.1 b.1 = false)

/-- A concrete two-section document used by the C7 witness. -/
def c7Doc : List (Yaml × Yaml) :=
  [(.str "x", .map [(.str "section", .str "B"),
      (.str "methods", .map [(.str "get", .map [])])]),
   (.str "y", .map [(.str "section", .str "A"),
      (.str "methods", .map [(.str "get", .map [])])])]

/-- The single-blank-line join that the claim asserts: sections joined
with one blank line ("\n\n") and one trailing newline. -/
def specSingleBlankJoin (parts : List String) : String :=
  pyJoin "\n\n" parts ++ "\n"

/-- A concrete two-section document used by the C1 counterexample and
witness. -/
def c1Doc : List (Yaml × Yaml) :=
  [(.str "pa", .map [(.str "section", .str "A"),
      (.str "methods", .map [(.str "get", .map [])])]),
   (.str "pb", .map [(.str "section", .str "B"),
      (.str "methods", .map [(.str "get", .map [])])])]

/-- The single expected row of one `(method_raw, method_meta)` item,
when the key is not null and the metadata is a mapping. -/
def entryRow (path : Yaml) (absolute : Bool) (owner ename bclass : Yaml)
    (kv : Yaml × Yaml) : Option Row :=
  match kv.1, kv.2 with
  | .null, _ => none
  | k, .map mm => some (rowFor path absolute owner ename bclass k mm)
  | _, _ => none

/-- The rows the specification expects from one `(path, meta)` item:
one row for every item of the resolved `methods` mapping whose key is
not null and whose metadata is a mapping, in order. -/
def rowsOfEntry (path meta : Yaml) : List Row :=
  match methodsResolved meta with
  | .map mkvs =>
    mkvs.filterMap (entryRow path (absoluteOf meta) (ownerOf meta)
      (enameOf meta) (bclassOf meta))
  | _ => []

/-- The rows the specification expects from a whole document, one per
valid (path, method) pair, in document order. -/
def rowsOfDoc : List (Yaml × Yaml) → List Row
  | [] => []
  | pm :: rest => rowsOfEntry pm.1 pm.2 ++ rowsOfDoc rest

/-- All rows stored in the section buckets, in bucket order. -/
def sectionsRows : List (Yaml × List Row) → List Row
  | [] => []
  | s :: ss => s.2 ++ sectionsRows ss

/-- Every row of every bucket comes from a document entry whose key is
the row's path, and the bucket's name is (by Python equality) the
resolved section of that entry. -/
def BucketsFrom (doc : List (Yaml × Yaml))
    (secs : List (Yaml × List Row)) : Prop :=
  ∀ s ∈ secs, ∀ r ∈ s.2,
    ∃ pm ∈ doc, r.path = pm.1 ∧ pyEq s.1 (sectionNameOf pm.2) = true

/-- A concrete document with a null method key, for the C4
counterexample. -/
def c4NullDoc : List (Yaml × Yaml) :=
  [(.str "/p", .map [(.str "methods", .map [(.null, .map [])])])]

/-- The string stored in a string value (junk on other values; only
used where a hypothesis forces a string). -/
def strOf : Yaml → String
  | .str s => s
  | _ => ""

/-- A well-typed renderable optional text field: either an actual
string or a falsy value (rendered as an empty cell). -/
def strOrFalsyB (v : Yaml) : Bool :=
  v.isStr || !pyTruthy v

/-- The nine fixed column labels of the table header, in order. -/
def specLabels : List String :=
  ["Path", "Method", "Region-aware", "Absolute", "Owner", "Endpoint Name",
   "Class (in backend)", "Locations used (in CLI)", "Notes"]

/-- An owner / endpoint-name / backend-class cell as the spec states
it: wrapped in inline code markup only if non-empty, else an empty
cell. -/
def specCell (v : Yaml) : String :=
  if pyTruthy v then "`" ++ sanitizeStr (strOf v) ++ "`" else ""

/-- The locations cell as the spec states it: wrapped only when a
non-empty joined string is present, else an empty cell. -/
def specLocCell : Option String → String
  | none => ""
  | some s => if s.isEmpty then "" else "`" ++ s ++ "`"

/-- One data row as the spec states it: the nine cells joined by the
column separator. -/
def specRowLine (r : Row) : String :=
  "| " ++ pyJoin " | "
    ["`" ++ sanitizeStr (strOf r.path) ++ "`",
     "`" ++ sanitizeStr r.method ++ "`",
     if r.region_aware then "Yes" else "No",
     if r.absolute then "Yes" else "No",
     specCell r.owner,
     specCell r.endpoint_name,
     specCell r.backend_class,
     specLocCell r.locations,
     strOf r.notes] ++ " |"

/-! ## Theorems -/

/-! ## Facts about code-point comparison -/

theorem charToNat_inj {a b : Char} (h : a.toNat = b.toNat) : a = b := by
  apply Char.ext
  apply UInt32.ext
  simpa [Char.toNat, UInt32.toNat] using h

theorem charListCmp_eq_iff : ∀ (s t : List Char), charListCmp s t = .eq ↔ s = t := by
  intro s
  induction s with
  | nil => intro t; cases t <;> simp [charListCmp]
  | cons a as ih =>
    intro t
    cases t with
    | nil => simp [charListCmp]
    | cons b bs =>
      simp only [charListCmp]
      by_cases h1 : a.toNat < b.toNat
      · simp only [if_pos h1]
        constructor
        · intro h; cases h
        · intro h
          cases h
          omega
      · by_cases h2 : b.toNat < a.toNat
        · simp only [if_neg h1, if_pos h2]
          constructor
          · intro h; cases h
          · intro h
            cases h
            omega
        · have hab : a = b := charToNat_inj (by omega)
          subst hab
          simp only [if_neg h1, if_neg h2, List.cons.injEq, true_and]
          exact ih bs

theorem charListCmp_swap : ∀ (s t : List Char),
    charListCmp s t = (charListCmp t s).swap := by
  intro s
  induction s with
  | nil => intro t; cases t <;> simp [charListCmp, Ordering.swap]
  | cons a as ih =>
    intro t
    cases t with
    | nil => simp [charListCmp, Ordering.swap]
    | cons b bs =>
      simp only [charListCmp]
      by_cases h1 : a.toNat < b.toNat
      · simp [if_pos h1, if_neg (by omega : ¬ b.toNat < a.toNat), Ordering.swap]
      · by_cases h2 : b.toNat < a.toNat
        · simp [if_neg h1, if_pos h2, Ordering.swap]
        · simp [if_neg h1, if_neg h2, ih bs]

theorem charListCmp_lt_trans : ∀ {s t u : List Char},
    charListCmp s t = .lt → charListCmp t u = .lt → charListCmp s u = .lt := by
  intro s
  induction s with
  | nil =>
    intro t u h1 h2
    cases t with
    | nil => cases h1
    | cons b bs =>
      cases u with
      | nil => cases h2
      | cons c cs => simp [charListCmp]
  | cons a as ih =>
    intro t u h1 h2
    cases t with
    | nil => cases h1
    | cons b bs =>
      cases u with
      | nil => cases h2
      | cons c cs =>
        simp only [charListCmp] at h1 h2 ⊢
        by_cases hab : a.toNat < b.toNat
        · by_cases hbc : b.toNat < c.toNat
          · simp [if_pos (by omega : a.toNat < c.toNat)]
          · by_cases hcb : c.toNat < b.toNat
            · simp only [if_neg hbc, if_pos hcb] at h2; cases h2
            · have : b = c := charToNat_inj (by omega)
              subst this
              simp [if_pos hab]
        · by_cases hba : b.toNat < a.toNat
          · simp only [if_pos hba, if_neg hab] at h1; cases h1
          · have : a = b := charToNat_inj (by omega)
            subst this
            simp only [if_neg hab, if_neg hba] at h1
            by_cases hbc : a.toNat < c.toNat
            · simp [if_pos hbc]
            · by_cases hcb : c.toNat < a.toNat
              · simp only [if_neg hbc, if_pos hcb] at h2; cases h2
              · have : a = c := charToNat_inj (by omega)
                subst this
                simp only [if_neg hbc, if_neg hcb] at h2 ⊢
                exact ih h1 h2

theorem charListCmp_self (s : List Char) : charListCmp s s = .eq :=
  (charListCmp_eq_iff s s).mpr rfl

/-- Trichotomy packaged for case analysis. -/
theorem charListCmp_cases (s t : List Char) :
    charListCmp s t = .lt ∨ charListCmp s t = .eq ∨ charListCmp s t = .gt := by
  cases h : charListCmp s t <;> simp

theorem charListCmp_gt_iff {s t : List Char} :
    charListCmp s t = .gt ↔ charListCmp t s = .lt := by
  rw [charListCmp_swap s t]
  cases charListCmp t s <;> simp [Ordering.swap]

/-! ## A theory of the stable sort -/

theorem mem_pyInsert (lt : α → α → Bool) (x : α) :
    ∀ (l : List α) (z : α), z ∈ pyInsert lt x l ↔ z = x ∨ z ∈ l := by
  intro l
  induction l with
  | nil => intro z; simp [pyInsert]
  | cons y ys ih =>
    intro z
    simp only [pyInsert]
    by_cases h : lt x y
    · simp only [if_pos h, List.mem_cons]
    · simp only [if_neg h, List.mem_cons, ih]
      tauto

theorem sublist_pyInsert (lt : α → α → Bool) (x : α) :
    ∀ (l : List α), l.Sublist (pyInsert lt x l) := by
  intro l
  induction l with
  | nil => simp [pyInsert]
  | cons y ys ih =>
    simp only [pyInsert]
    by_cases h : lt x y
    · simp only [if_pos h]
      exact List.sublist_cons_of_sublist x (List.Sublist.refl _)
    · simp only [if_neg h]
      exact List.cons_sublist_cons.mpr ih

theorem pyInsert_perm (lt : α → α → Bool) (x : α) :
    ∀ (l : List α), (pyInsert lt x l).Perm (x :: l) := by
  intro l
  induction l with
  | nil => simp [pyInsert]
  | cons y ys ih =>
    simp only [pyInsert]
    by_cases h : lt x y
    · simp [if_pos h]
    · simp only [if_neg h]
      exact List.Perm.trans (List.Perm.cons y ih) (List.Perm.swap x y ys)

theorem pyInsert_pairwise {lt : α → α → Bool} {P : α → Prop}
    (hasym : ∀ a b, P a → P b → lt a b = true → lt b a = false)
    (htrans : ∀ a b c, P a → P b → P c →
      lt a b = true → lt b c = true → lt a c = true)
    {x : α} (hx : P x) :
    ∀ {l : List α}, (∀ z ∈ l, P z) →
      l.Pairwise (fun a b => lt b a = false) →
      (pyInsert lt x l).Pairwise (fun a b => lt b a = false) := by
  intro l
  induction l with
  | nil => intro _ _; simp [pyInsert]
  | cons y ys ih =>
    intro hl hs
    have hy : P y := hl y (by simp)
    have hys : ∀ z ∈ ys, P z := fun z hz => hl z (by simp [hz])
    rw [List.pairwise_cons] at hs
    obtain ⟨hy_le, hys_pw⟩ := hs
    simp only [pyInsert]
    by_cases h : lt x y = true
    · simp only [if_pos h]
      rw [List.pairwise_cons]
      refine ⟨?_, List.pairwise_cons.mpr ⟨hy_le, hys_pw⟩⟩
      intro z hz
      rcases List.mem_cons.mp hz with rfl | hz'
      · exact hasym x z hx hy h
      · by_contra hc
        have hzx : lt z x = true := by
          cases hzx2 : lt z x
          · exact absurd hzx2 hc
          · rfl
        have := htrans z x y (hys z hz') hx hy hzx h
        rw [hy_le z hz'] at this
        cases this
    · simp only [if_neg h]
      rw [List.pairwise_cons]
      constructor
      · intro z hz
        rcases (mem_pyInsert lt x ys z).mp hz with rfl | hz'
        · simpa using h
        · exact hy_le z hz'
      · exact ih hys hys_pw

theorem pyInsert_pair_stable {lt : α → α → Bool} {P : α → Prop}
    (hconn : ∀ a b c, P a → P b → P c →
      lt a b = true → lt c b = false → lt a c = true)
    {x a : α} (hx : P x) (ha : P a) (hxa : lt x a = false) :
    ∀ {l : List α}, (∀ z ∈ l, P z) →
      l.Pairwise (fun u v => lt v u = false) →
      a ∈ l → [a, x].Sublist (pyInsert lt x l) := by
  intro l
  induction l with
  | nil => intro _ _ hmem; cases hmem
  | cons z zs ih =>
    intro hl hs hmem
    have hz : P z := hl z (by simp)
    have hzs : ∀ w ∈ zs, P w := fun w hw => hl w (by simp [hw])
    rw [List.pairwise_cons] at hs
    obtain ⟨hz_le, hzs_pw⟩ := hs
    simp only [pyInsert]
    by_cases h : lt x z = true
    · exfalso
      rcases List.mem_cons.mp hmem with rfl | hmem'
      · rw [hxa] at h; cases h
      · have := hconn x z a hx hz ha h (hz_le a hmem')
        rw [hxa] at this
        cases this
    · simp only [if_neg h]
      rcases List.mem_cons.mp hmem with rfl | hmem'
      · exact List.cons_sublist_cons.mpr
          (List.singleton_sublist.mpr ((mem_pyInsert lt x zs x).mpr (Or.inl rfl)))
      · exact List.sublist_cons_of_sublist z (ih hzs hzs_pw hmem')

theorem pySortAux_perm (lt : α → α → Bool) :
    ∀ (l acc : List α), (pySortAux lt acc l).Perm (acc ++ l) := by
  intro l
  induction l with
  | nil => intro acc; simp [pySortAux]
  | cons x xs ih =>
    intro acc
    simp only [pySortAux]
    refine (ih (pyInsert lt x acc)).trans ?_
    have h1 : (pyInsert lt x acc ++ xs).Perm ((x :: acc) ++ xs) :=
      (pyInsert_perm lt x acc).append_right xs
    exact h1.trans List.perm_middle.symm

theorem pySortAux_pairwise {lt : α → α → Bool} {P : α → Prop}
    (hasym : ∀ a b, P a → P b → lt a b = true → lt b a = false)
    (htrans : ∀ a b c, P a → P b → P c →
      lt a b = true → lt b c = true → lt a c = true) :
    ∀ (l acc : List α), (∀ z ∈ acc ++ l, P z) →
      acc.Pairwise (fun a b => lt b a = false) →
      (pySortAux lt acc l).Pairwise (fun a b => lt b a = false) := by
  intro l
  induction l with
  | nil =>
    intro acc _ hacc
    simpa [pySortAux] using hacc
  | cons x xs ih =>
    intro acc hP hacc
    have hx : P x := hP x (by simp)
    have haccP : ∀ z ∈ acc, P z := fun z hz => hP z (by simp [hz])
    simp only [pySortAux]
    refine ih (pyInsert lt x acc) ?_ ?_
    · intro z hz
      rcases List.mem_append.mp hz with hz' | hz'
      · rcases (mem_pyInsert lt x acc z).mp hz' with rfl | hz''
        · exact hx
        · exact haccP z hz''
      · exact hP z (by simp [hz'])
    · exact pyInsert_pairwise hasym htrans hx haccP hacc

theorem pySortAux_stable {lt : α → α → Bool} {P : α → Prop}
    (hasym : ∀ a b, P a → P b → lt a b = true → lt b a = false)
    (htrans : ∀ a b c, P a → P b → P c →
      lt a b = true → lt b c = true → lt a c = true)
    (hconn : ∀ a b c, P a → P b → P c →
      lt a b = true → lt c b = false → lt a c = true)
    {a b : α} (hab : lt a b = false) (hba : lt b a = false) :
    ∀ (l acc : List α), (∀ z ∈ acc ++ l, P z) →
      acc.Pairwise (fun u v => lt v u = false) →
      [a, b].Sublist (acc ++ l) →
      [a, b].Sublist (pySortAux lt acc l) := by
  intro l
  induction l with
  | nil =>
    intro acc _ _ hsub
    simpa [pySortAux] using hsub
  | cons x xs ih =>
    intro acc hP hacc hsub
    have hx : P x := hP x (by simp)
    have haccP : ∀ z ∈ acc, P z := fun z hz => hP z (by simp [hz])
    have haccP2 : ∀ z ∈ pyInsert lt x acc, P z := by
      intro z hz
      rcases (mem_pyInsert lt x acc z).mp hz with rfl | hz'
      · exact hx
      · exact haccP z hz'
    have hP2 : ∀ z ∈ pyInsert lt x acc ++ xs, P z := by
      intro z hz
      rcases List.mem_append.mp hz with hz' | hz'
      · exact haccP2 z hz'
      · exact hP z (by simp [hz'])
    have hacc2 : (pyInsert lt x acc).Pairwise (fun u v => lt v u = false) :=
      pyInsert_pairwise hasym htrans hx haccP hacc
    simp only [pySortAux]
    obtain ⟨s1, s2, hsplit, h1, h2⟩ := List.sublist_append_iff.mp hsub
    have step : [a, b].Sublist (pyInsert lt x acc ++ xs) := by
      cases s1 with
      | nil =>
        have hs2 : s2 = [a, b] := by simpa using hsplit.symm
        subst hs2
        cases h2 with
        | cons _ h' =>
          exact List.Sublist.trans h' (List.sublist_append_right _ _)
        | cons₂ _ h' =>
          have hax : a ∈ pyInsert lt a acc :=
            (mem_pyInsert lt a acc a).mpr (Or.inl rfl)
          exact List.Sublist.append (List.singleton_sublist.mpr hax) h'
      | cons u t1 =>
        cases t1 with
        | nil =>
          have hu : u = a ∧ s2 = [b] := by
            have h' := hsplit.symm
            simp only [List.cons_append, List.nil_append,
              List.cons.injEq] at h'
            exact ⟨h'.1, h'.2⟩
          obtain ⟨rfl, rfl⟩ := hu
          have hamem : u ∈ acc := List.singleton_sublist.mp h1
          cases h2 with
          | cons _ h' =>
            have hbxs : b ∈ xs := List.singleton_sublist.mp h'
            exact List.Sublist.append
              (List.singleton_sublist.mpr
                ((mem_pyInsert lt x acc u).mpr (Or.inr hamem)))
              (List.singleton_sublist.mpr hbxs)
          | cons₂ _ h' =>
            have hpair : [u, b].Sublist (pyInsert lt b acc) :=
              pyInsert_pair_stable hconn (hP b (by simp)) (haccP u hamem) hba
                haccP hacc hamem
            exact List.Sublist.trans hpair (List.sublist_append_left _ _)
        | cons v t2 =>
          have hu : u = a ∧ v = b ∧ t2 ++ s2 = [] := by
            have h' := hsplit.symm
            simp only [List.cons_append, List.cons.injEq] at h'
            exact ⟨h'.1, h'.2.1, h'.2.2⟩
          obtain ⟨rfl, rfl, ht⟩ := hu
          have ht2 : t2 = [] := by
            cases t2 with
            | nil => rfl
            | cons w ws => simp at ht
          subst ht2
          have hsub2 : [u, v].Sublist (pyInsert lt x acc) :=
            List.Sublist.trans (by simpa using h1) (sublist_pyInsert lt x acc)
          exact List.Sublist.trans hsub2 (List.sublist_append_left _ _)
    exact ih (pyInsert lt x acc) hP2 hacc2 step

theorem pySort_perm (lt : α → α → Bool) (l : List α) :
    (pySort lt l).Perm l :=
  pySortAux_perm lt l []

theorem pySort_pairwise {lt : α → α → Bool} {P : α → Prop}
    (hasym : ∀ a b, P a → P b → lt a b = true → lt b a = false)
    (htrans : ∀ a b c, P a → P b → P c →
      lt a b = true → lt b c = true → lt a c = true)
    {l : List α} (hP : ∀ z ∈ l, P z) :
    (pySort lt l).Pairwise (fun a b => lt b a = false) :=
  pySortAux_pairwise hasym htrans l [] (by simpa using hP) (by simp)

theorem pySort_stable {lt : α → α → Bool} {P : α → Prop}
    (hasym : ∀ a b, P a → P b → lt a b = true → lt b a = false)
    (htrans : ∀ a b c, P a → P b → P c →
      lt a b = true → lt b c = true → lt a c = true)
    (hconn : ∀ a b c, P a → P b → P c →
      lt a b = true → lt c b = false → lt a c = true)
    {a b : α} (hab : lt a b = false) (hba : lt b a = false)
    {l : List α} (hP : ∀ z ∈ l, P z) (hsub : [a, b].Sublist l) :
    [a, b].Sublist (pySort lt l) :=
  pySortAux_stable hasym htrans hconn hab hba l [] (by simpa using hP)
    (by simp) (by simpa using hsub)

/-! ## Keys used by the row and section sorts -/

theorem string_data_inj {s t : String} (h : s.data = t.data) : s = t := by
  cases s
  cases t
  exact congrArg String.mk h

theorem strLt_iff {p q : String} :
    strLt p q = true ↔ charListCmp p.data q.data = .lt := by
  cases h : charListCmp p.data q.data <;> simp only [strLt, h] <;> decide

theorem strLt_self (p : String) : strLt p p = false := by
  simp only [strLt, charListCmp_self]
  decide

theorem strLt_asym {p q : String} (h : strLt p q = true) : strLt q p = false := by
  rw [strLt_iff] at h
  have h' : charListCmp q.data p.data = .gt := charListCmp_gt_iff.mpr h
  simp only [strLt, h']
  decide

theorem strLt_trans {p q r : String} (h1 : strLt p q = true)
    (h2 : strLt q r = true) : strLt p r = true := by
  rw [strLt_iff] at h1 h2 ⊢
  exact charListCmp_lt_trans h1 h2

theorem strLt_or_eq_of_not_lt {p q : String} (h : strLt q p = false) :
    p = q ∨ strLt p q = true := by
  rcases charListCmp_cases p.data q.data with hc | hc | hc
  · exact Or.inr (strLt_iff.mpr hc)
  · exact Or.inl (string_data_inj ((charListCmp_eq_iff _ _).mp hc))
  · exact absurd (strLt_iff.mpr (charListCmp_gt_iff.mp hc)) (by simp [h])

theorem strLt_conn {p q r : String} (h1 : strLt p q = true)
    (h2 : strLt r q = false) : strLt p r = true := by
  rcases strLt_or_eq_of_not_lt h2 with hc | hc
  · rw [← hc]
    exact h1
  · exact strLt_trans h1 hc

theorem keyLt_unfold {a b : Nat × String} :
    keyLt a b = true ↔ a.1 < b.1 ∨ (a.1 = b.1 ∧ strLt a.2 b.2 = true) := by
  simp [keyLt]

theorem keyLt_self (a : Nat × String) : keyLt a a = false := by
  simp [keyLt, strLt_self]

theorem keyLt_asym {a b : Nat × String} (h : keyLt a b = true) :
    keyLt b a = false := by
  cases hk : keyLt b a
  · rfl
  · exfalso
    rcases keyLt_unfold.mp h with h1 | ⟨h1, h1b⟩ <;>
      rcases keyLt_unfold.mp hk with h2 | ⟨h2, h2b⟩
    · omega
    · omega
    · omega
    · rw [strLt_asym h1b] at h2b
      cases h2b

theorem keyLt_trans {a b c : Nat × String} (h1 : keyLt a b = true)
    (h2 : keyLt b c = true) : keyLt a c = true := by
  rw [keyLt_unfold] at h1 h2 ⊢
  rcases h1 with h1 | ⟨h1, h1b⟩ <;> rcases h2 with h2 | ⟨h2, h2b⟩
  · exact Or.inl (by omega)
  · exact Or.inl (by omega)
  · exact Or.inl (by omega)
  · exact Or.inr ⟨by omega, strLt_trans h1b h2b⟩

theorem keyLt_not_lt {a b : Nat × String} (h : keyLt b a = false) :
    a.1 ≤ b.1 ∧ (b.1 = a.1 → a.2 = b.2 ∨ strLt a.2 b.2 = true) := by
  constructor
  · by_contra hn
    have hk : keyLt b a = true := keyLt_unfold.mpr (Or.inl (by omega))
    exact absurd h (by simp [hk])
  · intro he
    by_cases hs : strLt b.2 a.2 = true
    · have hk : keyLt b a = true := keyLt_unfold.mpr (Or.inr ⟨he, hs⟩)
      exact absurd h (by simp [hk])
    · exact strLt_or_eq_of_not_lt (by simpa using hs)

theorem keyLt_conn {a b c : Nat × String} (h1 : keyLt a b = true)
    (h2 : keyLt c b = false) : keyLt a c = true := by
  rw [keyLt_unfold] at h1 ⊢
  obtain ⟨hge, heq⟩ := keyLt_not_lt h2
  rcases h1 with h1 | ⟨h1, h1b⟩
  · exact Or.inl (by omega)
  · by_cases hn : a.1 < c.1
    · exact Or.inl hn
    · have he : c.1 = b.1 := by omega
      have he2 : a.1 = c.1 := by omega
      rcases heq he with hd | hd
      · refine Or.inr ⟨he2, ?_⟩
        rw [hd] at h1b
        exact h1b
      · exact Or.inr ⟨he2, strLt_conn h1b (strLt_asym hd)⟩

theorem key3Lt_unfold {a b : String × Nat × String} :
    key3Lt a b = true ↔
      strLt a.1 b.1 = true ∨ (a.1 = b.1 ∧ keyLt a.2 b.2 = true) := by
  simp [key3Lt]

theorem key3Lt_asym {a b : String × Nat × String}
    (h : key3Lt a b = true) : key3Lt b a = false := by
  cases hk : key3Lt b a
  · rfl
  · exfalso
    rcases key3Lt_unfold.mp h with h1 | ⟨h1, h1b⟩ <;>
      rcases key3Lt_unfold.mp hk with h2 | ⟨h2, h2b⟩
    · rw [strLt_asym h1] at h2
      cases h2
    · rw [h2] at h1
      exact absurd h1 (by simp [strLt_self])
    · rw [h1] at h2
      exact absurd h2 (by simp [strLt_self])
    · rw [keyLt_asym h1b] at h2b
      cases h2b

theorem key3Lt_trans {a b c : String × Nat × String}
    (h1 : key3Lt a b = true) (h2 : key3Lt b c = true) :
    key3Lt a c = true := by
  rw [key3Lt_unfold] at h1 h2 ⊢
  rcases h1 with h1 | ⟨h1, h1b⟩ <;> rcases h2 with h2 | ⟨h2, h2b⟩
  · exact Or.inl (strLt_trans h1 h2)
  · exact Or.inl (h2 ▸ h1)
  · exact Or.inl (h1 ▸ h2)
  · exact Or.inr ⟨h1.trans h2, keyLt_trans h1b h2b⟩

theorem key3Lt_conn {a b c : String × Nat × String}
    (h1 : key3Lt a b = true) (h2 : key3Lt c b = false) :
    key3Lt a c = true := by
  rw [key3Lt_unfold] at h1 ⊢
  have h2' : strLt c.1 b.1 = false ∧ (c.1 = b.1 → keyLt c.2 b.2 = false) := by
    constructor
    · by_cases hs : strLt c.1 b.1 = true
      · have hk : key3Lt c b = true := key3Lt_unfold.mpr (Or.inl hs)
        exact absurd h2 (by simp [hk])
      · simpa using hs
    · intro he
      by_cases hk : keyLt c.2 b.2 = true
      · have hh : key3Lt c b = true := key3Lt_unfold.mpr (Or.inr ⟨he, hk⟩)
        exact absurd h2 (by simp [hh])
      · simpa using hk
  obtain ⟨h2a, h2b⟩ := h2'
  rcases h1 with h1 | ⟨h1, h1b⟩
  · rcases strLt_or_eq_of_not_lt h2a with hc | hc
    · exact Or.inl (hc ▸ h1)
    · exact Or.inl (strLt_conn h1 (strLt_asym hc))
  · rcases strLt_or_eq_of_not_lt h2a with hc | hc
    · exact Or.inr ⟨h1.trans hc, keyLt_conn h1b (h2b hc.symm)⟩
    · exact Or.inl (h1 ▸ hc)

theorem pyEq_str (p q : String) : pyEq (.str p) (.str q) = (p == q) := by
  simp [pyEq]

theorem pyCompare_str (p q : String) :
    pyCompare (.str p) (.str q) = some (charListCmp p.data q.data) := by
  simp [pyCompare]

theorem isStr_iff {y : Yaml} : y.isStr = true ↔ ∃ s, y = .str s := by
  cases y <;> simp [Yaml.isStr]

theorem rowLt_eq_key3 {r s : Row} (hr : r.path.isStr = true)
    (hs : s.path.isStr = true) :
    rowLt r s = key3Lt (rowKey3 r) (rowKey3 s) := by
  obtain ⟨p, hp⟩ := isStr_iff.mp hr
  obtain ⟨q, hq⟩ := isStr_iff.mp hs
  simp only [rowLt, rowKey3, pathStr, hp, hq, pyEq_str, pyCompare_str, key3Lt]
  by_cases hpq : p = q
  · subst hpq
    simp [strLt_self]
  · have hne : (p == q) = false := by simpa using hpq
    simp only [hne, Bool.false_and, Bool.or_false, if_neg (by simpa using hpq)]
    cases hc : charListCmp p.data q.data <;> simp [strLt, hc] <;> rfl

theorem rowCmpOk_of_str {r s : Row} (hr : r.path.isStr = true)
    (hs : s.path.isStr = true) : rowCmpOk r s = true := by
  obtain ⟨p, hp⟩ := isStr_iff.mp hr
  obtain ⟨q, hq⟩ := isStr_iff.mp hs
  simp [rowCmpOk, hp, hq, pyCompare_str]

theorem allPairs_of_forall {f : α → α → Bool} :
    ∀ {l : List α}, (∀ a ∈ l, ∀ b ∈ l, f a b = true) → allPairs f l = true := by
  intro l
  induction l with
  | nil => intro _; rfl
  | cons x xs ih =>
    intro h
    simp only [allPairs, Bool.and_eq_true]
    constructor
    · rw [List.all_eq_true]
      intro y hy
      exact h x (by simp) y (by simp [hy])
    · exact ih (fun a ha b hb => h a (by simp [ha]) b (by simp [hb]))

theorem pySortRows_of_str {rows : List Row}
    (h : ∀ r ∈ rows, r.path.isStr = true) :
    pySortRows rows = some (pySort rowLt rows) := by
  unfold pySortRows
  rw [allPairs_of_forall (fun a ha b hb => rowCmpOk_of_str (h a ha) (h b hb))]
  rfl

theorem indexOf?_eq_mem (l : List String) (m : String) :
    l.indexOf? m = if m ∈ l then some (l.indexOf m) else none := by
  induction l with
  | nil => rfl
  | cons x xs ih =>
    rw [List.indexOf?_cons, List.indexOf_cons]
    by_cases hxm : x = m
    · subst hxm
      simp
    · have hb : (x == m) = false := by simpa using hxm
      have hmx : ¬ m = x := fun hh => hxm hh.symm
      rw [ih]
      by_cases hm : m ∈ xs
      · simp [hb, hm, hmx]
      · simp [hb, hm, hmx]

theorem method_sort_key_mem {m : String} (hm : pyUpper m = m)
    (h : m ∈ METHOD_ORDER) :
    method_sort_key m = (METHOD_ORDER.indexOf m, "") := by
  simp [method_sort_key, hm, indexOf?_eq_mem, h]

theorem method_sort_key_not_mem {m : String} (hm : pyUpper m = m)
    (h : m ∉ METHOD_ORDER) :
    method_sort_key m = (METHOD_ORDER.length, m) := by
  simp [method_sort_key, hm, indexOf?_eq_mem, h]

theorem key3Lt_false_parts {x y : String × Nat × String}
    (h : key3Lt x y = false) :
    strLt x.1 y.1 = false ∧ (x.1 = y.1 → keyLt x.2 y.2 = false) := by
  constructor
  · by_cases hs : strLt x.1 y.1 = true
    · exact absurd h (by simp [key3Lt_unfold.mpr (Or.inl hs)])
    · simpa using hs
  · intro he
    by_cases hk : keyLt x.2 y.2 = true
    · exact absurd h (by simp [key3Lt_unfold.mpr (Or.inr ⟨he, hk⟩)])
    · simpa using hk

theorem rowLE_to_spec {a b : Row} (ha : a.path.isStr = true)
    (hb : b.path.isStr = true) (hma : pyUpper a.method = a.method)
    (hmb : pyUpper b.method = b.method) (h : rowLt b a = false) :
    specRowLE a b := by
  obtain ⟨p, hp⟩ := isStr_iff.mp ha
  obtain ⟨q, hq⟩ := isStr_iff.mp hb
  rw [rowLt_eq_key3 hb ha] at h
  simp only [rowKey3, pathStr, hp, hq] at h
  obtain ⟨h1, h2⟩ := key3Lt_false_parts h
  have h1' : strLt q p = false := h1
  have h2' : q = p →
      keyLt (method_sort_key b.method) (method_sort_key a.method) = false := h2
  rcases strLt_or_eq_of_not_lt h1' with hpq | hlt
  · right
    have hk := h2' hpq.symm
    refine ⟨by rw [hp, hq, hpq], ?_⟩
    obtain ⟨hle, heq⟩ := keyLt_not_lt hk
    by_cases hMa : a.method ∈ METHOD_ORDER <;>
      by_cases hMb : b.method ∈ METHOD_ORDER
    · left
      refine ⟨hMa, hMb, ?_⟩
      rw [method_sort_key_mem hma hMa, method_sort_key_mem hmb hMb] at hle
      exact hle
    · right; left
      exact ⟨hMa, hMb⟩
    · exfalso
      rw [method_sort_key_not_mem hma hMa, method_sort_key_mem hmb hMb] at hle
      have hblt : METHOD_ORDER.indexOf b.method < METHOD_ORDER.length :=
        List.indexOf_lt_length.mpr hMb
      simp at hle
      omega
    · right; right
      refine ⟨hMa, hMb, ?_⟩
      rw [method_sort_key_not_mem hma hMa, method_sort_key_not_mem hmb hMb]
        at heq
      exact heq rfl
  · left
    exact ⟨p, q, hp, hq, hlt⟩

theorem rowKey_eq_not_lt {a b : Row} (ha : a.path.isStr = true)
    (hk : rowSortKey a = rowSortKey b) :
    rowLt a b = false ∧ rowLt b a = false := by
  obtain ⟨p, hp⟩ := isStr_iff.mp ha
  have hpath : a.path = b.path := congrArg Prod.fst hk
  have hkey : method_sort_key a.method = method_sort_key b.method :=
    congrArg Prod.snd hk
  have hq : b.path = .str p := hpath ▸ hp
  constructor <;>
    · simp only [rowLt, hp, hq, pyEq_str, beq_self_eq_true, if_true, hkey]
      simp [keyLt_self]

theorem rowLt_asym_str {a b : Row} (pa : a.path.isStr = true)
    (pb : b.path.isStr = true) (h : rowLt a b = true) : rowLt b a = false := by
  rw [rowLt_eq_key3 pa pb] at h
  rw [rowLt_eq_key3 pb pa]
  exact key3Lt_asym h

theorem rowLt_trans_str {a b c : Row} (pa : a.path.isStr = true)
    (pb : b.path.isStr = true) (pc : c.path.isStr = true)
    (h1 : rowLt a b = true) (h2 : rowLt b c = true) : rowLt a c = true := by
  rw [rowLt_eq_key3 pa pb] at h1
  rw [rowLt_eq_key3 pb pc] at h2
  rw [rowLt_eq_key3 pa pc]
  exact key3Lt_trans h1 h2

theorem rowLt_conn_str {a b c : Row} (pa : a.path.isStr = true)
    (pb : b.path.isStr = true) (pc : c.path.isStr = true)
    (h1 : rowLt a b = true) (h2 : rowLt c b = false) : rowLt a c = true := by
  rw [rowLt_eq_key3 pa pb] at h1
  rw [rowLt_eq_key3 pc pb] at h2
  rw [rowLt_eq_key3 pa pc]
  exact key3Lt_conn h1 h2

/-- C3: within one section, the renderer sorts rows with primary key
the path string under code-point comparison and secondary key the
method per the fixed priority list (case-insensitively matched, with
unlisted methods after all listed ones and lexicographic among
themselves), and the sort is a stable permutation: for rows as built
(string paths, uppercased methods) the sort succeeds, the output is a
permutation of the input, consecutive rows satisfy the specified
order, and rows with equal sort keys keep their prior relative
order. -/
theorem C3_row_sort (rows : List Row)
    (h : ∀ r ∈ rows, r.path.isStr = true ∧ pyUpper r.method = r.method) :
    ∃ l, pySortRows rows = some l ∧ l.Perm rows ∧ l.Pairwise specRowLE ∧
      (∀ a b : Row, rowSortKey a = rowSortKey b → [a, b].Sublist rows →
        [a, b].Sublist l) := by
  have hstr : ∀ r ∈ rows, r.path.isStr = true := fun r hr => (h r hr).1
  have hasym : ∀ a b : Row, a.path.isStr = true → b.path.isStr = true →
      rowLt a b = true → rowLt b a = false :=
    fun a b pa pb => rowLt_asym_str pa pb
  have htrans : ∀ a b c : Row, a.path.isStr = true → b.path.isStr = true →
      c.path.isStr = true → rowLt a b = true → rowLt b c = true →
      rowLt a c = true :=
    fun a b c pa pb pc => rowLt_trans_str pa pb pc
  have hconn : ∀ a b c : Row, a.path.isStr = true → b.path.isStr = true →
      c.path.isStr = true → rowLt a b = true → rowLt c b = false →
      rowLt a c = true :=
    fun a b c pa pb pc => rowLt_conn_str pa pb pc
  rw [pySortRows_of_str hstr]
  refine ⟨_, rfl, pySort_perm _ _, ?_, ?_⟩
  · have hpw := @pySort_pairwise Row rowLt (fun r : Row => r.path.isStr = true)
      hasym htrans rows hstr
    refine List.Pairwise.imp_of_mem ?_ hpw
    intro x y hx hy hxy
    have hx' : x ∈ rows := (pySort_perm rowLt rows).subset hx
    have hy' : y ∈ rows := (pySort_perm rowLt rows).subset hy
    exact rowLE_to_spec (h x hx').1 (h y hy').1 (h x hx').2 (h y hy').2 hxy
  · intro a b hk hsub
    have ha : a ∈ rows := hsub.subset (by simp)
    obtain ⟨hab, hba⟩ := rowKey_eq_not_lt (h a ha).1 hk
    exact pySort_stable hasym htrans hconn hab hba hstr hsub

/-- Witness for C3 at a concrete two-row section. -/
theorem C3_row_sort_witness :
    ∃ l, pySortRows c3Rows = some l ∧ l.Perm c3Rows ∧
      l.Pairwise specRowLE ∧
      (∀ a b : Row, rowSortKey a = rowSortKey b →
        [a, b].Sublist c3Rows → [a, b].Sublist l) :=
  C3_row_sort c3Rows (by decide)

/-- C5: the sanitizer replaces every literal backtick with U+2032 and
alters no other character (stated position by position), maps null to
the empty string, leaves no backtick in its output, and is
idempotent. -/
theorem C5_sanitizer :
    sanitize_code_span none = "" ∧
    (∀ s : String, (sanitizeStr s).length = s.length) ∧
    (∀ (s : String) (i : Nat),
      (sanitizeStr s).data[i]? =
        (s.data[i]?).map (fun c => if c = '`' then '′' else c)) ∧
    (∀ s : String, '`' ∉ (sanitizeStr s).data) ∧
    (∀ s : String, sanitizeStr (sanitizeStr s) = sanitizeStr s) := by
  refine ⟨rfl, ?_, ?_, ?_, ?_⟩
  · intro s
    show (s.data.map sanChar).length = s.data.length
    simp
  · intro s i
    simp only [sanitizeStr, List.getElem?_map]
    rfl
  · intro s hmem
    simp only [sanitizeStr] at hmem
    obtain ⟨c, _, hc⟩ := List.mem_map.mp hmem
    by_cases h : c = '`'
    · rw [h] at hc
      simp [sanChar] at hc
    · rw [show sanChar c = c from by simp [sanChar, h]] at hc
      exact h hc
  · intro s
    apply string_data_inj
    simp only [sanitizeStr, List.map_map]
    apply List.map_congr_left
    intro c _
    by_cases h : c = '`' <;> simp [sanChar, h]

theorem locParts_eq (xs : List Yaml) :
    locParts xs =
      (xs.filter (fun p => !p.isNull)).map (fun p => sanitizeStr (pyStr p)) := by
  induction xs with
  | nil => rfl
  | cons p ps ih =>
    cases p <;> simp [locParts, Yaml.isNull, ih]

/-- C6: `normalize_locations` returns absent for null, the sanitized
string for a string, the sanitized non-null elements joined with ", "
(absent when that list is empty) for a sequence, and the sanitized
string coercion for any other value. -/
theorem C6_normalize_locations (loc : Yaml) :
    normalize_locations loc = normalize_locations_spec loc := by
  cases loc <;>
    simp [normalize_locations, normalize_locations_spec, locParts_eq,
      List.isEmpty_iff]

theorem addRow_mem_keys {secs : List (Yaml × List Row)} {name : Yaml}
    {r : Row} :
    ∀ y ∈ addRow secs name r, (∃ y2 ∈ secs, y.1 = y2.1) ∨ y.1 = name := by
  induction secs with
  | nil =>
    intro y hy
    simp only [addRow, List.mem_singleton] at hy
    subst hy
    exact Or.inr rfl
  | cons s rest ih =>
    obtain ⟨n, rs⟩ := s
    intro y hy
    simp only [addRow] at hy
    by_cases h : pyEq n name = true
    · rw [if_pos h] at hy
      rcases List.mem_cons.mp hy with rfl | hy'
      · exact Or.inl ⟨(n, rs), by simp⟩
      · exact Or.inl ⟨y, by simp [hy']⟩
    · rw [if_neg h] at hy
      rcases List.mem_cons.mp hy with rfl | hy'
      · exact Or.inl ⟨(n, rs), by simp⟩
      · rcases ih y hy' with ⟨y2, hy2, he⟩ | he
        · exact Or.inl ⟨y2, by simp [hy2], he⟩
        · exact Or.inr he

theorem addRow_keysDistinct {secs : List (Yaml × List Row)}
    (h : KeysDistinct secs) (name : Yaml) (r : Row) :
    KeysDistinct (addRow secs name r) := by
  induction secs with
  | nil => simp [addRow, KeysDistinct]
  | cons s rest ih =>
    obtain ⟨n, rs⟩ := s
    rw [KeysDistinct, List.pairwise_cons] at h
    obtain ⟨hhead, htail⟩ := h
    simp only [addRow]
    by_cases hh : pyEq n name = true
    · rw [if_pos hh]
      rw [KeysDistinct, List.pairwise_cons]
      exact ⟨hhead, htail⟩
    · rw [if_neg hh]
      rw [KeysDistinct, List.pairwise_cons]
      refine ⟨?_, ih htail⟩
      intro y hy
      rcases addRow_mem_keys y hy with ⟨y2, hy2, he⟩ | he
      · rw [he]
        exact hhead y2 hy2
      · rw [he]
        simpa using hh

theorem processMethod_keysDistinct {acc : BuildState}
    (h : KeysDistinct acc.1) (path secName : Yaml) (absolute : Bool)
    (owner ename bclass : Yaml) (k v : Yaml) :
    KeysDistinct (processMethod path secName absolute owner ename bclass
      acc k v).1 := by
  cases k <;> simp only [processMethod] <;>
    first
      | exact h
      | (cases v <;> simp only [] <;>
          first
            | exact addRow_keysDistinct h _ _
            | exact h)

theorem foldMethods_keysDistinct {acc : BuildState}
    (h : KeysDistinct acc.1) (path secName : Yaml) (absolute : Bool)
    (owner ename bclass : Yaml) (mkvs : List (Yaml × Yaml)) :
    KeysDistinct ((mkvs.foldl
      (fun a kv => processMethod path secName absolute owner ename bclass
        a kv.1 kv.2) acc)).1 := by
  induction mkvs generalizing acc with
  | nil => exact h
  | cons kv rest ih =>
    exact ih (processMethod_keysDistinct h _ _ _ _ _ _ kv.1 kv.2)

theorem processPath_keysDistinct {acc : BuildState}
    (h : KeysDistinct acc.1) (path meta : Yaml) :
    KeysDistinct (processPath acc path meta).1 := by
  simp only [processPath]
  cases hm : methodsResolved meta
  case map mkvs => exact foldMethods_keysDistinct h _ _ _ _ _ _ mkvs
  all_goals exact h

theorem build_rows_keysDistinct (doc : List (Yaml × Yaml)) :
    KeysDistinct (build_rows doc).1 := by
  unfold build_rows
  have hgen : ∀ (l : List (Yaml × Yaml)) (acc : BuildState),
      KeysDistinct acc.1 →
      KeysDistinct (l.foldl (fun a pm => processPath a pm.1 pm.2) acc).1 := by
    intro l
    induction l with
    | nil => intro acc h; exact h
    | cons pm rest ih =>
      intro acc h
      exact ih _ (processPath_keysDistinct h pm.1 pm.2)
  exact hgen doc ([], []) (by simp [KeysDistinct])

theorem nameLt_str (p q : String) : nameLt (.str p) (.str q) = strLt p q := by
  cases hc : charListCmp p.data q.data <;>
    simp [nameLt, pyCompare_str, strLt, hc]

theorem pySortedNames_of_str {ns : List Yaml}
    (h : ∀ n ∈ ns, n.isStr = true) :
    pySortedNames ns = some (pySort nameLt ns) := by
  have hcmp : ∀ a ∈ ns, ∀ b ∈ ns, ((pyCompare a b).isSome : Bool) = true := by
    intro a ha b hb
    obtain ⟨p, hp⟩ := isStr_iff.mp (h a ha)
    obtain ⟨q, hq⟩ := isStr_iff.mp (h b hb)
    simp [hp, hq, pyCompare_str]
  unfold pySortedNames
  rw [allPairs_of_forall hcmp]
  rfl

theorem nameLt_asym_str {a b : Yaml} (pa : a.isStr = true)
    (pb : b.isStr = true) (h : nameLt a b = true) : nameLt b a = false := by
  obtain ⟨p, hp⟩ := isStr_iff.mp pa
  obtain ⟨q, hq⟩ := isStr_iff.mp pb
  subst hp; subst hq
  rw [nameLt_str] at h ⊢
  exact strLt_asym h

theorem nameLt_trans_str {a b c : Yaml} (pa : a.isStr = true)
    (pb : b.isStr = true) (pc : c.isStr = true)
    (h1 : nameLt a b = true) (h2 : nameLt b c = true) : nameLt a c = true := by
  obtain ⟨p, hp⟩ := isStr_iff.mp pa
  obtain ⟨q, hq⟩ := isStr_iff.mp pb
  obtain ⟨u, hu⟩ := isStr_iff.mp pc
  subst hp; subst hq; subst hu
  rw [nameLt_str] at h1 h2 ⊢
  exact strLt_trans h1 h2

theorem nameLt_conn_str {a b c : Yaml} (pa : a.isStr = true)
    (pb : b.isStr = true) (pc : c.isStr = true)
    (h1 : nameLt a b = true) (h2 : nameLt c b = false) : nameLt a c = true := by
  obtain ⟨p, hp⟩ := isStr_iff.mp pa
  obtain ⟨q, hq⟩ := isStr_iff.mp pb
  obtain ⟨u, hu⟩ := isStr_iff.mp pc
  subst hp; subst hq; subst hu
  rw [nameLt_str] at h1 h2 ⊢
  exact strLt_conn h1 h2

/-- C7: the driver emits sections in insertion (first-encountered)
order from the grouper when the no-sort flag is passed, section names
are pairwise distinct, and by default (no flag) the emitted section
name list is a permutation of the grouper's names in strictly
alphabetical (code-point) order. -/
theorem C7_section_order (doc : List (Yaml × Yaml)) :
    orderedNames (build_rows doc).1 true =
      some ((build_rows doc).1.map (fun s => s.1)) ∧
    ((build_rows doc).1.map (fun s => s.1)).Pairwise
      (fun a b => pyEq a b = false) ∧
    ((∀ n ∈ (build_rows doc).1.map (fun s => s.1), n.isStr = true) →
      ∃ ns, orderedNames (build_rows doc).1 false = some ns ∧
        ns.Perm ((build_rows doc).1.map (fun s => s.1)) ∧
        ns.Pairwise (fun a b => ∃ p q, a = .str p ∧ b = .str q ∧
          strLt p q = true)) := by
  have hkd := build_rows_keysDistinct doc
  rw [KeysDistinct] at hkd
  have hpw : ((build_rows doc).1.map (fun s => s.1)).Pairwise
      (fun a b => pyEq a b = false) := List.pairwise_map.mpr hkd
  refine ⟨rfl, hpw, ?_⟩
  intro hstr
  have hord : orderedNames (build_rows doc).1 false =
      pySortedNames ((build_rows doc).1.map (fun s => s.1)) := rfl
  refine ⟨pySort nameLt ((build_rows doc).1.map (fun s => s.1)),
    by rw [hord, pySortedNames_of_str hstr], pySort_perm _ _, ?_⟩
  have hperm := pySort_perm nameLt ((build_rows doc).1.map (fun s => s.1))
  have hsorted := @pySort_pairwise Yaml nameLt (fun n : Yaml => n.isStr = true)
    (fun a b pa pb => nameLt_asym_str pa pb)
    (fun a b c pa pb pc => nameLt_trans_str pa pb pc)
    ((build_rows doc).1.map (fun s => s.1)) hstr
  have hne : ((build_rows doc).1.map (fun s => s.1)).Pairwise
      (fun a b : Yaml => a ≠ b) := by
    refine List.Pairwise.imp_of_mem ?_ hpw
    intro x y hx hy hxy
    obtain ⟨p, hp⟩ := isStr_iff.mp (hstr x hx)
    obtain ⟨q, hq⟩ := isStr_iff.mp (hstr y hy)
    subst hp; subst hq
    rw [pyEq_str] at hxy
    simpa using hxy
  have hne2 : (pySort nameLt ((build_rows doc).1.map (fun s => s.1))).Pairwise
      (fun a b : Yaml => a ≠ b) := hperm.symm.nodup hne
  refine List.Pairwise.imp_of_mem ?_ (hsorted.and hne2)
  intro x y hx hy hxy
  obtain ⟨hle, hnexy⟩ := hxy
  obtain ⟨p, hp⟩ := isStr_iff.mp (hstr x (hperm.subset hx))
  obtain ⟨q, hq⟩ := isStr_iff.mp (hstr y (hperm.subset hy))
  subst hp; subst hq
  rw [nameLt_str] at hle
  rcases strLt_or_eq_of_not_lt hle with he | hlt
  · exact absurd (congrArg Yaml.str he) hnexy
  · exact ⟨p, q, rfl, rfl, hlt⟩

/-- Witness for C7 at a concrete two-section document. -/
theorem C7_section_order_witness :
    orderedNames (build_rows c7Doc).1 true =
      some ((build_rows c7Doc).1.map (fun s => s.1)) ∧
    ∃ ns, orderedNames (build_rows c7Doc).1 false = some ns ∧
      ns.Perm ((build_rows c7Doc).1.map (fun s => s.1)) ∧
      ns.Pairwise (fun a b => ∃ p q, a = .str p ∧ b = .str q ∧
        strLt p q = true) :=
  ⟨(C7_section_order c7Doc).1, (C7_section_order c7Doc).2.2 (by decide)⟩

/-- C10: an empty top-level mapping makes the run succeed with exit
status 0 and write exactly one newline character; no section is
rendered at all. -/
theorem C10_empty_doc :
    ∀ noSort : Bool, runMain (some (.ok (.map []))) noSort true =
      (0, some "\n") ∧ pipelineParts [] noSort = some [] := by
  intro noSort
  cases noSort <;> exact ⟨rfl, rfl⟩

/-- C8: the driver returns 0 on success and three pairwise-distinct
nonzero statuses for the three fatal failure classes: 2 for a read
failure, 3 for a parse failure (including a non-mapping top level), 4
for a write failure; on a read or parse failure nothing is written. -/
theorem C8_exit_statuses :
    (∀ noSort writeOk, runMain none noSort writeOk = (2, none)) ∧
    (∀ e noSort writeOk,
      runMain (some (.error e)) noSort writeOk = (3, none)) ∧
    (∀ y noSort writeOk, y.isMap = false →
      runMain (some (.ok y)) noSort writeOk = (3, none)) ∧
    (∀ kvs noSort out, pipelineOutput kvs noSort = some out →
      runMain (some (.ok (.map kvs))) noSort false = (4, none) ∧
      runMain (some (.ok (.map kvs))) noSort true = (0, some out)) ∧
    ((2 : Nat) ≠ 0 ∧ (3 : Nat) ≠ 0 ∧ (4 : Nat) ≠ 0 ∧
      (2 : Nat) ≠ 3 ∧ (2 : Nat) ≠ 4 ∧ (3 : Nat) ≠ 4) := by
  refine ⟨fun _ _ => rfl, fun _ _ _ => rfl, ?_, ?_, by decide⟩
  · intro y noSort writeOk h
    cases y <;> first
      | rfl
      | (rw [Yaml.isMap] at h; cases h)
  · intro kvs noSort out h
    constructor <;>
      simp [runMain, parse_yaml, Except.bind, h]

/-- Witness for C8 at concrete runs of each failure class. -/
theorem C8_exit_statuses_witness :
    runMain none false true = (2, none) ∧
    runMain (some (.error "boom")) false true = (3, none) ∧
    runMain (some (.ok (.list []))) false true = (3, none) ∧
    runMain (some (.ok (.map []))) false false = (4, none) ∧
    runMain (some (.ok (.map []))) false true = (0, some "\n") :=
  ⟨C8_exit_statuses.1 false true,
   C8_exit_statuses.2.1 "boom" false true,
   C8_exit_statuses.2.2.1 (.list []) false true (by decide),
   (C8_exit_statuses.2.2.2.1 [] false "\n" (by decide)).1,
   (C8_exit_statuses.2.2.2.1 [] false "\n" (by decide)).2⟩

/-! ## The driver's joining of section outputs -/

theorem pyJoin_outParts : ∀ parts : List String,
    pyJoin "\n\n" (outParts parts) = pyJoin "\n\n\n\n" parts := by
  intro parts
  induction parts with
  | nil => rfl
  | cons p rest ih =>
    cases rest with
    | nil => rfl
    | cons q rest2 =>
      have hout : outParts (p :: q :: rest2) =
          p :: "" :: outParts (q :: rest2) := rfl
      rw [hout]
      have hcons : ∃ z zs, outParts (q :: rest2) = z :: zs := by
        cases rest2 <;> exact ⟨_, _, rfl⟩
      obtain ⟨z, zs, hz⟩ := hcons
      rw [hz]
      have h1 : pyJoin "\n\n" (p :: "" :: z :: zs) =
          p ++ "\n\n" ++ ("" ++ "\n\n" ++ pyJoin "\n\n" (z :: zs)) := rfl
      have h2 : pyJoin "\n\n\n\n" (p :: q :: rest2) =
          p ++ "\n\n\n\n" ++ pyJoin "\n\n\n\n" (q :: rest2) := rfl
      rw [h1, h2, ← ih, hz]
      apply string_data_inj
      simp [String.data_append]

theorem output_text_eq (parts : List String) :
    output_text parts = pyJoin "\n\n\n\n" parts ++ "\n" := by
  rw [output_text, pyJoin_outParts]

theorem mapOpt_mem {f : α → Option β} :
    ∀ {l : List α} {ys : List β}, mapOpt f l = some ys →
      ∀ y ∈ ys, ∃ x ∈ l, f x = some y := by
  intro l
  induction l with
  | nil =>
    intro ys h y hy
    simp only [mapOpt, Option.some.injEq] at h
    subst h
    cases hy
  | cons x xs ih =>
    intro ys h y hy
    cases hfx : f x with
    | none => simp [mapOpt, hfx] at h
    | some z =>
      cases hm : mapOpt f xs with
      | none => simp [mapOpt, hfx, hm] at h
      | some zs =>
        simp [mapOpt, hfx, hm] at h
        subst h
        rcases List.mem_cons.mp hy with rfl | hy'
        · exact ⟨x, by simp, hfx⟩
        · obtain ⟨x2, hx2, hfx2⟩ := ih hm y hy'
          exact ⟨x2, by simp [hx2], hfx2⟩

theorem pyJoin_last (sep : String) :
    ∀ (l : List String) (x : String), x.data ≠ [] →
      (pyJoin sep (l ++ [x])).data.getLast? = x.data.getLast? := by
  intro l
  induction l with
  | nil =>
    intro x _
    rfl
  | cons p rest ih =>
    intro x hx
    have hcons : ∃ z zs, rest ++ [x] = z :: zs := by
      cases rest <;> exact ⟨_, _, rfl⟩
    obtain ⟨z, zs, hz⟩ := hcons
    have h1 : pyJoin sep ((p :: rest) ++ [x]) =
        p ++ sep ++ pyJoin sep (rest ++ [x]) := by
      show pyJoin sep (p :: (rest ++ [x])) = _
      rw [hz]
      rfl
    rw [h1]
    have ihx := ih x hx
    have hne : (pyJoin sep (rest ++ [x])).data ≠ [] := by
      intro hnil
      rw [hnil] at ihx
      have : x.data.getLast? = none := ihx.symm
      cases hxd : x.data with
      | nil => exact hx hxd
      | cons c cs =>
        rw [hxd] at this
        simp at this
    rw [String.data_append, String.data_append, List.append_assoc,
      List.getLast?_append]
    rw [List.getLast?_append]
    cases hgl : (pyJoin sep (rest ++ [x])).data.getLast? with
    | none =>
      exfalso
      exact hne (List.getLast?_eq_none_iff.mp hgl)
    | some c =>
      rw [hgl] at ihx
      simp [ihx.symm]

theorem renderRowLine_last {r : Row} {y : String}
    (h : renderRowLine r = some y) : y.data.getLast? = some '|' := by
  cases hpc : codeCell r.path with
  | none => simp [renderRowLine, hpc] at h
  | some pc =>
    cases hoc : optCodeCell r.owner with
    | none => simp [renderRowLine, hpc, hoc] at h
    | some oc =>
      cases hec : optCodeCell r.endpoint_name with
      | none => simp [renderRowLine, hpc, hoc, hec] at h
      | some ec =>
        cases hcc : optCodeCell r.backend_class with
        | none => simp [renderRowLine, hpc, hoc, hec, hcc] at h
        | some cc =>
          have hform : renderRowLine r = some ("| " ++ pc ++ " | " ++
              ("`" ++ sanitizeStr r.method ++ "`") ++ " | " ++
              bool_to_yesno r.region_aware ++ " | " ++
              bool_to_yesno r.absolute ++ " | " ++ oc ++ " | " ++ ec ++
              " | " ++ cc ++ " | " ++ locationsCell r.locations ++ " | " ++
              notesCell r.notes ++ " |") := by
            rw [renderRowLine, hpc, hoc, hec, hcc]
            rfl
          rw [hform, Option.some.injEq] at h
          subst h
          rw [String.data_append, List.getLast?_append]
          rfl

theorem render_section_last {sec : Yaml} {rows : List Row} {out : String}
    (h : render_section sec rows = some out) : out.data.getLast? = some '|' := by
  obtain ⟨rowLines, hlines, hout⟩ :
      ∃ rowLines, (∃ sorted, pySortRows rows = some sorted ∧
        mapOpt renderRowLine sorted = some rowLines) ∧
        out = pyJoin "\n"
          (["### " ++ pyStr sec, "", headerRow, dividerRow] ++ rowLines) := by
    cases hs : pySortRows rows with
    | none => simp [render_section, hs] at h
    | some sorted =>
      cases hm : mapOpt renderRowLine sorted with
      | none => simp [render_section, hs, hm] at h
      | some rowLines =>
        simp [render_section, hs, hm] at h
        exact ⟨rowLines, ⟨sorted, rfl, hm⟩, h.symm⟩

  obtain ⟨sorted, hsorted, hlines⟩ := hlines
  subst hout
  rcases List.eq_nil_or_concat rowLines with hnil | ⟨ys, y, hy⟩
  · subst hnil
    have : (["### " ++ pyStr sec, "", headerRow, dividerRow] : List String) ++ [] =
        ["### " ++ pyStr sec, "", headerRow] ++ [dividerRow] := by simp
    rw [this, pyJoin_last _ _ dividerRow (by decide)]
    decide
  · subst hy
    have hylast : y.data.getLast? = some '|' := by
      obtain ⟨x, hx, hfx⟩ := mapOpt_mem hlines y (by simp)
      exact renderRowLine_last hfx
    have hyne : y.data ≠ [] := by
      intro hnil
      rw [hnil] at hylast
      simp at hylast
    have : (["### " ++ pyStr sec, "", headerRow, dividerRow] : List String) ++
        ys.concat y =
        (["### " ++ pyStr sec, "", headerRow, dividerRow] ++ ys) ++ [y] := by
      simp [List.concat_eq_append]
    rw [this, pyJoin_last _ _ y hyne]
    exact hylast

/-- C1 counterexample: on a two-section document the driver's output is
not the rendered sections joined with a single blank line; adjacent
section tables are in fact separated by three empty lines (the
substring "\n\n\n\n" occurs in the output). -/
theorem C1_single_blank_cex :
    pipelineOutput c1Doc false ≠
      (pipelineParts c1Doc false).map specSingleBlankJoin ∧
    (pipelineOutput c1Doc false).isSome = true ∧
    "\n\n\n\n".data.IsInfix ((pipelineOutput c1Doc false).getD "").data := by
  refine ⟨by decide, by decide, by decide⟩

/-- C1 (amended): the driver joins the rendered section outputs with
three empty lines between consecutive sections (the separator
"\n\n\n\n", produced by the extra empty part inserted between sections
before the "\n\n" join) and exactly one trailing newline: the output
ends with a newline and the character before it, when one exists, is
not a newline. -/
theorem C1_join_sections (doc : List (Yaml × Yaml)) (noSort : Bool)
    (parts : List String) (h : pipelineParts doc noSort = some parts) :
    pipelineOutput doc noSort = some (pyJoin "\n\n\n\n" parts ++ "\n") ∧
    (pyJoin "\n\n\n\n" parts ++ "\n").data.getLast? = some '\n' ∧
    (pyJoin "\n\n\n\n" parts ++ "\n").data.dropLast.getLast? ≠ some '\n' := by
  refine ⟨?_, ?_, ?_⟩
  · rw [pipelineOutput, h]
    simp [output_text_eq]
  · rw [String.data_append, List.getLast?_append]
    rfl
  · rw [String.data_append]
    rw [show ("\n".data : List Char) = ['\n'] from rfl,
      List.dropLast_concat]
    rcases List.eq_nil_or_concat parts with hnil | ⟨ys, y, hy⟩
    · subst hnil
      intro hcon
      simp [pyJoin] at hcon
    · subst hy
      have hy' : ∃ n, render_section n
          (sectionRows (build_rows doc).1 n) = some y := by
        have hparts := h
        cases hord : orderedNames (build_rows doc).1 noSort with
        | none => simp [pipelineParts, hord] at hparts
        | some names =>
          simp only [pipelineParts, hord, Option.some_bind] at hparts
          obtain ⟨n, _, hn⟩ := mapOpt_mem hparts y (by simp)
          exact ⟨n, hn⟩
      obtain ⟨n, hn⟩ := hy'
      have hlast : y.data.getLast? = some '|' := render_section_last hn
      have hyne : y.data ≠ [] := by
        intro hnil
        rw [hnil] at hlast
        simp at hlast
      rw [show ys.concat y = ys ++ [y] from by simp [List.concat_eq_append],
        pyJoin_last _ _ y hyne, hlast]
      intro hcon
      cases hcon

/-- Witness for the amended C1 at the concrete two-section document. -/
theorem C1_join_sections_witness :
    pipelineOutput c1Doc false =
      some (pyJoin "\n\n\n\n" ((pipelineParts c1Doc false).getD []) ++ "\n") ∧
    (pyJoin "\n\n\n\n" ((pipelineParts c1Doc false).getD []) ++ "\n").data.getLast? =
      some '\n' ∧
    (pyJoin "\n\n\n\n" ((pipelineParts c1Doc false).getD []) ++
      "\n").data.dropLast.getLast? ≠ some '\n' :=
  C1_join_sections c1Doc false ((pipelineParts c1Doc false).getD []) (by decide)

/-! ## Reflexivity of Python equality -/

theorem pyEqList_refl_of {xs : List Yaml} (h : ∀ x ∈ xs, pyEq x x = true) :
    pyEqList xs xs = true := by
  induction xs with
  | nil => simp [pyEqList]
  | cons x rest ih =>
    simp [pyEqList, h x (by simp), ih (fun y hy => h y (by simp [hy]))]

theorem pyEqPairs_refl_of {kvs : List (Yaml × Yaml)}
    (h : ∀ kv ∈ kvs, pyEq kv.1 kv.1 = true ∧ pyEq kv.2 kv.2 = true) :
    pyEqPairs kvs kvs = true := by
  induction kvs with
  | nil => simp [pyEqPairs]
  | cons kv rest ih =>
    obtain ⟨k, v⟩ := kv
    have hk := h (k, v) (by simp)
    simp [pyEqPairs, hk.1, hk.2, ih (fun y hy => h y (by simp [hy]))]

theorem pyEq_refl (y : Yaml) : pyEq y y = true := by
  have H : ∀ n, ∀ y : Yaml, sizeOf y ≤ n → pyEq y y = true := by
    intro n
    induction n with
    | zero =>
      intro y hy
      cases y <;> simp_arith at hy
    | succ n ih =>
      intro y hy
      cases y with
      | null => simp [pyEq]
      | bool b => cases b <;> simp [pyEq, yamlNum]
      | int k => simp [pyEq, yamlNum]
      | str s => simp [pyEq]
      | list xs =>
        rw [show pyEq (Yaml.list xs) (Yaml.list xs) = pyEqList xs xs from
          by simp [pyEq]]
        apply pyEqList_refl_of
        intro x hx
        apply ih
        have h1 := List.sizeOf_lt_of_mem hx
        have h2 : sizeOf (Yaml.list xs) = 1 + sizeOf xs := by simp
        omega
      | map kvs =>
        rw [show pyEq (Yaml.map kvs) (Yaml.map kvs) = pyEqPairs kvs kvs from
          by simp [pyEq]]
        apply pyEqPairs_refl_of
        intro kv hkv
        have h1 := List.sizeOf_lt_of_mem hkv
        have h2 : sizeOf (Yaml.map kvs) = 1 + sizeOf kvs := by simp
        have h3 : sizeOf kv = 1 + sizeOf kv.1 + sizeOf kv.2 := by
          obtain ⟨a, b⟩ := kv
          simp
        constructor <;> (apply ih; omega)
  exact H (sizeOf y) y (Nat.le_refl _)

theorem addRow_sectionsRows (secs : List (Yaml × List Row)) (n : Yaml)
    (r : Row) :
    (sectionsRows (addRow secs n r)).Perm (sectionsRows secs ++ [r]) := by
  induction secs with
  | nil => simp [addRow, sectionsRows]
  | cons s rest ih =>
    obtain ⟨n2, rs⟩ := s
    by_cases h : pyEq n2 n = true
    · simp only [addRow, if_pos h, sectionsRows]
      rw [List.append_assoc, List.append_assoc]
      exact List.Perm.append_left rs List.perm_append_comm
    · simp only [addRow, if_neg h, sectionsRows]
      rw [List.append_assoc]
      exact List.Perm.append_left rs ih

theorem processMethod_sectionsRows (path secName : Yaml) (absolute : Bool)
    (owner ename bclass : Yaml) (acc : BuildState) (kv : Yaml × Yaml) :
    (sectionsRows (processMethod path secName absolute owner ename bclass
        acc kv.1 kv.2).1).Perm
      (sectionsRows acc.1 ++
        (entryRow path absolute owner ename bclass kv).toList) := by
  obtain ⟨k, v⟩ := kv
  cases k <;> cases v <;>
    simp [processMethod, entryRow, addRow_sectionsRows]

theorem foldMethods_sectionsRows (path secName : Yaml) (absolute : Bool)
    (owner ename bclass : Yaml) :
    ∀ (mkvs : List (Yaml × Yaml)) (acc : BuildState),
      (sectionsRows (mkvs.foldl
        (fun a kv => processMethod path secName absolute owner ename bclass
          a kv.1 kv.2) acc).1).Perm
      (sectionsRows acc.1 ++
        mkvs.filterMap (entryRow path absolute owner ename bclass)) := by
  intro mkvs
  induction mkvs with
  | nil =>
    intro acc
    simp
  | cons kv rest ih =>
    intro acc
    rw [List.foldl_cons]
    refine (ih _).trans ?_
    rw [List.filterMap_cons]
    cases he : entryRow path absolute owner ename bclass kv with
    | none =>
      have hp := processMethod_sectionsRows path secName absolute owner
        ename bclass acc kv
      rw [he] at hp
      simp only [Option.toList_none, List.append_nil] at hp
      exact hp.append_right _
    | some r =>
      have hp := processMethod_sectionsRows path secName absolute owner
        ename bclass acc kv
      rw [he] at hp
      simp only [Option.toList_some] at hp
      refine (hp.append_right _).trans ?_
      rw [List.append_assoc]
      exact List.Perm.append_left _ (List.perm_middle.symm)

theorem processPath_sectionsRows (acc : BuildState) (path meta : Yaml) :
    (sectionsRows (processPath acc path meta).1).Perm
      (sectionsRows acc.1 ++ rowsOfEntry path meta) := by
  rw [processPath, rowsOfEntry]
  cases hm : methodsResolved meta with
  | map mkvs => exact foldMethods_sectionsRows _ _ _ _ _ _ mkvs acc
  | null => simp
  | bool b => simp
  | int n => simp
  | str s => simp
  | list xs => simp

theorem build_rows_sectionsRows (doc : List (Yaml × Yaml)) :
    (sectionsRows (build_rows doc).1).Perm (rowsOfDoc doc) := by
  have hgen : ∀ (l : List (Yaml × Yaml)) (acc : BuildState),
      (sectionsRows (l.foldl (fun a pm => processPath a pm.1 pm.2) acc).1).Perm
        (sectionsRows acc.1 ++ rowsOfDoc l) := by
    intro l
    induction l with
    | nil => intro acc; simp [rowsOfDoc]
    | cons pm rest ih =>
      intro acc
      rw [List.foldl_cons]
      refine (ih _).trans ?_
      rw [show rowsOfDoc (pm :: rest) = rowsOfEntry pm.1 pm.2 ++ rowsOfDoc rest
        from rfl]
      rw [← List.append_assoc]
      exact (processPath_sectionsRows acc pm.1 pm.2).append_right _
  have := hgen doc ([], [])
  simpa [sectionsRows] using this

theorem addRow_bucket_mem {secs : List (Yaml × List Row)} {n : Yaml} {r : Row} :
    ∀ s ∈ addRow secs n r, ∀ r2 ∈ s.2,
      (∃ s2 ∈ secs, s2.1 = s.1 ∧ r2 ∈ s2.2) ∨
        (r2 = r ∧ pyEq s.1 n = true) := by
  induction secs with
  | nil =>
    intro s hs r2 hr2
    simp only [addRow, List.mem_singleton] at hs
    subst hs
    simp only [List.mem_singleton] at hr2
    exact Or.inr ⟨hr2, pyEq_refl n⟩
  | cons s0 rest ih =>
    obtain ⟨n2, rs⟩ := s0
    intro s hs r2 hr2
    simp only [addRow] at hs
    by_cases h : pyEq n2 n = true
    · rw [if_pos h] at hs
      rcases List.mem_cons.mp hs with rfl | hs'
      · rcases List.mem_append.mp hr2 with hr' | hr'
        · exact Or.inl ⟨(n2, rs), by simp, rfl, hr'⟩
        · simp only [List.mem_singleton] at hr'
          exact Or.inr ⟨hr', h⟩
      · exact Or.inl ⟨s, by simp [hs'], rfl, hr2⟩
    · rw [if_neg h] at hs
      rcases List.mem_cons.mp hs with rfl | hs'
      · exact Or.inl ⟨(n2, rs), by simp, rfl, hr2⟩
      · rcases ih s hs' r2 hr2 with ⟨s2, hs2, he, hr'⟩ | hr'
        · exact Or.inl ⟨s2, by simp [hs2], he, hr'⟩
        · exact Or.inr hr'

theorem processMethod_buckets {doc : List (Yaml × Yaml)} {acc : BuildState}
    {path meta : Yaml} (hpm : (path, meta) ∈ doc)
    (h : BucketsFrom doc acc.1) (k v : Yaml) :
    BucketsFrom doc (processMethod path (sectionNameOf meta)
      (absoluteOf meta) (ownerOf meta) (enameOf meta) (bclassOf meta)
      acc k v).1 := by
  have haddCase : ∀ mm : List (Yaml × Yaml), ∀ kk : Yaml,
      BucketsFrom doc (addRow acc.1 (sectionNameOf meta)
        (rowFor path (absoluteOf meta) (ownerOf meta) (enameOf meta)
          (bclassOf meta) kk mm)) := by
    intro mm kk s hs r2 hr2
    rcases addRow_bucket_mem s hs r2 hr2 with ⟨s2, hs2, he, hr'⟩ | ⟨rfl, hEq⟩
    · obtain ⟨pm, hpm2, hpath, hsec⟩ := h s2 hs2 r2 hr'
      exact ⟨pm, hpm2, hpath, he ▸ hsec⟩
    · exact ⟨(path, meta), hpm, rfl, hEq⟩
  cases k with
  | null => exact h
  | bool b => cases v <;> first | exact haddCase _ _ | exact h
  | int n => cases v <;> first | exact haddCase _ _ | exact h
  | str s => cases v <;> first | exact haddCase _ _ | exact h
  | list xs => cases v <;> first | exact haddCase _ _ | exact h
  | map kvs => cases v <;> first | exact haddCase _ _ | exact h

theorem foldMethods_buckets {doc : List (Yaml × Yaml)} {path meta : Yaml}
    (hpm : (path, meta) ∈ doc) :
    ∀ (mkvs : List (Yaml × Yaml)) (acc : BuildState),
      BucketsFrom doc acc.1 →
      BucketsFrom doc (mkvs.foldl
        (fun a kv => processMethod path (sectionNameOf meta)
          (absoluteOf meta) (ownerOf meta) (enameOf meta) (bclassOf meta)
          a kv.1 kv.2) acc).1 := by
  intro mkvs
  induction mkvs with
  | nil => intro acc h; exact h
  | cons kv rest ih =>
    intro acc h
    rw [List.foldl_cons]
    exact ih _ (processMethod_buckets hpm h kv.1 kv.2)

theorem processPath_buckets {doc : List (Yaml × Yaml)} {acc : BuildState}
    {path meta : Yaml} (hpm : (path, meta) ∈ doc)
    (h : BucketsFrom doc acc.1) :
    BucketsFrom doc (processPath acc path meta).1 := by
  rw [processPath]
  cases hm : methodsResolved meta with
  | map mkvs => exact foldMethods_buckets hpm mkvs acc h
  | null => exact h
  | bool b => exact h
  | int n => exact h
  | str s => exact h
  | list xs => exact h

theorem build_rows_buckets (doc : List (Yaml × Yaml)) :
    BucketsFrom doc (build_rows doc).1 := by
  have hgen : ∀ (l : List (Yaml × Yaml)) (acc : BuildState),
      (∀ pm ∈ l, pm ∈ doc) → BucketsFrom doc acc.1 →
      BucketsFrom doc (l.foldl (fun a pm => processPath a pm.1 pm.2) acc).1 := by
    intro l
    induction l with
    | nil => intro acc _ h; exact h
    | cons pm rest ih =>
      intro acc hmem h
      rw [List.foldl_cons]
      exact ih _ (fun q hq => hmem q (by simp [hq]))
        (processPath_buckets (hmem pm (by simp)) h)
  exact hgen doc ([], []) (fun _ h => h) (by intro s hs; cases hs)

theorem sectionsRows_length (secs : List (Yaml × List Row)) :
    (sectionsRows secs).length = (secs.map (fun s => s.2.length)).sum := by
  induction secs with
  | nil => rfl
  | cons s rest ih => simp [sectionsRows, ih]

/-- C4 counterexample: in `c4NullDoc` the single path has a
mapping-typed `methods` field containing one (method, metadata) pair
whose metadata is a mapping, yet the build produces no row at all (the
null method key is silently skipped), so that pair does not yield
exactly one row. -/
theorem C4_null_key_cex :
    methodsResolved (.map [(.str "methods", .map [(.null, .map [])])]) =
      .map [(.null, .map [])] ∧
    ((.null, Yaml.map []) : Yaml × Yaml) ∈ [((.null : Yaml), Yaml.map [])] ∧
    (Yaml.map []).isMap = true ∧
    (build_rows c4NullDoc).1 = [] ∧
    (sectionsRows (build_rows c4NullDoc).1).length = 0 := by
  refine ⟨rfl, List.mem_singleton.mpr rfl, by decide, rfl, by decide⟩

/-- C4 (amended): for every document, the rows stored across all
sections are exactly (as a multiset, one for one) the rows of the
valid (path, method) pairs — those with a non-null method key under a
mapping-typed resolved `methods` field and mapping-typed method
metadata; section names are pairwise distinct so each row lies in
exactly one section; the sum of per-section row counts is the total
row count; and each row's section is determined solely by the resolved
`section` value of the entry carrying the row's path. -/
theorem C4_partition (doc : List (Yaml × Yaml)) :
    (sectionsRows (build_rows doc).1).Perm (rowsOfDoc doc) ∧
    ((build_rows doc).1.map (fun s => s.2.length)).sum =
      (rowsOfDoc doc).length ∧
    KeysDistinct (build_rows doc).1 ∧
    BucketsFrom doc (build_rows doc).1 := by
  refine ⟨build_rows_sectionsRows doc, ?_, build_rows_keysDistinct doc,
    build_rows_buckets doc⟩
  rw [← sectionsRows_length]
  exact (build_rows_sectionsRows doc).length_eq

/-- Witness for C4: the bucket-provenance conjunct applied at a
concrete document, section and row. -/
theorem C4_partition_witness :
    ∃ pm ∈ c1Doc,
      ({ path := .str "pa", method := "GET", region_aware := false,
         absolute := false, owner := .null, endpoint_name := .null,
         backend_class := .null, locations := none,
         notes := .str "" } : Row).path = pm.1 ∧
      pyEq (.str "A") (sectionNameOf pm.2) = true :=
  (C4_partition c1Doc).2.2.2 (.str "A",
      [{ path := .str "pa", method := "GET", region_aware := false,
         absolute := false, owner := .null, endpoint_name := .null,
         backend_class := .null, locations := none, notes := .str "" }])
    (by exact List.mem_cons_self _ _)
    { path := .str "pa", method := "GET", region_aware := false,
      absolute := false, owner := .null, endpoint_name := .null,
      backend_class := .null, locations := none, notes := .str "" }
    (List.mem_singleton.mpr rfl)

/-! ## Warnings do not influence sections, sections do not depend on
warnings -/

theorem processMethod_fst_congr (path secName : Yaml) (absolute : Bool)
    (owner ename bclass : Yaml) {a b : BuildState} (h : a.1 = b.1)
    (k v : Yaml) :
    (processMethod path secName absolute owner ename bclass a k v).1 =
    (processMethod path secName absolute owner ename bclass b k v).1 := by
  cases k <;> cases v <;> simp [processMethod, h]

theorem processMethod_snd_append (path secName : Yaml) (absolute : Bool)
    (owner ename bclass : Yaml) (a : BuildState) (k v : Yaml) :
    (processMethod path secName absolute owner ename bclass a k v).2 =
      a.2 ++ (processMethod path secName absolute owner ename bclass
        (a.1, []) k v).2 := by
  cases k <;> cases v <;> simp [processMethod]

theorem foldMethods_fst_congr (path secName : Yaml) (absolute : Bool)
    (owner ename bclass : Yaml) :
    ∀ (mkvs : List (Yaml × Yaml)) {a b : BuildState}, a.1 = b.1 →
      (mkvs.foldl (fun x kv => processMethod path secName absolute owner
        ename bclass x kv.1 kv.2) a).1 =
      (mkvs.foldl (fun x kv => processMethod path secName absolute owner
        ename bclass x kv.1 kv.2) b).1 := by
  intro mkvs
  induction mkvs with
  | nil => intro a b h; exact h
  | cons kv rest ih =>
    intro a b h
    rw [List.foldl_cons, List.foldl_cons]
    exact ih (processMethod_fst_congr path secName absolute owner ename
      bclass h kv.1 kv.2)

theorem foldMethods_snd_append (path secName : Yaml) (absolute : Bool)
    (owner ename bclass : Yaml) :
    ∀ (mkvs : List (Yaml × Yaml)) (a : BuildState),
      (mkvs.foldl (fun x kv => processMethod path secName absolute owner
        ename bclass x kv.1 kv.2) a).2 =
      a.2 ++ (mkvs.foldl (fun x kv => processMethod path secName absolute
        owner ename bclass x kv.1 kv.2) (a.1, [])).2 := by
  intro mkvs
  induction mkvs with
  | nil => intro a; simp
  | cons kv rest ih =>
    intro a
    rw [List.foldl_cons, List.foldl_cons]
    rw [ih (processMethod path secName absolute owner ename bclass a kv.1 kv.2)]
    rw [ih (processMethod path secName absolute owner ename bclass
      (a.1, []) kv.1 kv.2)]
    rw [processMethod_snd_append path secName absolute owner ename bclass
      a kv.1 kv.2]
    rw [List.append_assoc]
    have hfst : (processMethod path secName absolute owner ename bclass
        a kv.1 kv.2).1 =
        (processMethod path secName absolute owner ename bclass
          (a.1, []) kv.1 kv.2).1 :=
      @processMethod_fst_congr path secName absolute owner ename bclass
        a (a.1, []) rfl kv.1 kv.2
    rw [hfst]

theorem processPath_fst_congr {a b : BuildState} (h : a.1 = b.1)
    (path meta : Yaml) :
    (processPath a path meta).1 = (processPath b path meta).1 := by
  rw [processPath, processPath]
  cases methodsResolved meta with
  | map mkvs => exact foldMethods_fst_congr _ _ _ _ _ _ mkvs h
  | null => exact h
  | bool c => exact h
  | int n => exact h
  | str s => exact h
  | list xs => exact h

theorem processPath_snd_append (a : BuildState) (path meta : Yaml) :
    (processPath a path meta).2 =
      a.2 ++ (processPath (a.1, []) path meta).2 := by
  rw [processPath, processPath]
  cases methodsResolved meta with
  | map mkvs => exact foldMethods_snd_append _ _ _ _ _ _ mkvs a
  | null => simp
  | bool c => simp
  | int n => simp
  | str s => simp
  | list xs => simp

theorem foldDoc_fst_congr :
    ∀ (l : List (Yaml × Yaml)) {a b : BuildState}, a.1 = b.1 →
      (l.foldl (fun x pm => processPath x pm.1 pm.2) a).1 =
      (l.foldl (fun x pm => processPath x pm.1 pm.2) b).1 := by
  intro l
  induction l with
  | nil => intro a b h; exact h
  | cons pm rest ih =>
    intro a b h
    rw [List.foldl_cons, List.foldl_cons]
    exact ih (processPath_fst_congr h pm.1 pm.2)

theorem foldDoc_snd_append :
    ∀ (l : List (Yaml × Yaml)) (a : BuildState),
      (l.foldl (fun x pm => processPath x pm.1 pm.2) a).2 =
      a.2 ++ (l.foldl (fun x pm => processPath x pm.1 pm.2) (a.1, [])).2 := by
  intro l
  induction l with
  | nil => intro a; simp
  | cons pm rest ih =>
    intro a
    rw [List.foldl_cons, List.foldl_cons]
    rw [ih (processPath a pm.1 pm.2), ih (processPath (a.1, []) pm.1 pm.2)]
    rw [processPath_snd_append a pm.1 pm.2]
    rw [List.append_assoc]
    have hfst : (processPath a pm.1 pm.2).1 =
        (processPath (a.1, []) pm.1 pm.2).1 :=
      @processPath_fst_congr a (a.1, []) rfl pm.1 pm.2
    rw [hfst]

theorem processPath_nonmap {meta : Yaml}
    (h : (methodsResolved meta).isMap = false) (acc : BuildState)
    (path : Yaml) :
    processPath acc path meta = (acc.1, acc.2 ++ [methodsWarning path]) := by
  rw [processPath]
  cases hm : methodsResolved meta with
  | map mkvs => rw [hm] at h; cases h
  | null => rfl
  | bool b => rfl
  | int n => rfl
  | str s => rfl
  | list xs => rfl

theorem pipelineParts_congr {d1 d2 : List (Yaml × Yaml)}
    (h : (build_rows d1).1 = (build_rows d2).1) (noSort : Bool) :
    pipelineParts d1 noSort = pipelineParts d2 noSort := by
  rw [pipelineParts, pipelineParts, h]

/-- C2 counterexample: a path whose `methods` field is present and is a
sequence (the empty sequence), hence not a mapping, yet the build emits
no stderr diagnostic at all — the falsy value is silently replaced by
an empty mapping rather than skipped with a warning. -/
theorem C2_falsy_methods_cex :
    pyGetD [(Yaml.str "methods", Yaml.list [])] (.str "methods") .null =
      .list [] ∧
    (Yaml.list []).isMap = false ∧
    (build_rows [(.str "p", .map [(.str "methods", .list [])])]).2 = [] ∧
    (build_rows [(.str "p", .map [(.str "methods", .list [])])]).1 = [] :=
  ⟨rfl, by decide, rfl, rfl⟩

/-- C2 (amended): for every path whose resolved `methods` value is not
a mapping — that is, `methods` is present, truthy, and not a mapping
(a falsy non-mapping such as an empty sequence is instead treated as an
empty mapping, producing no rows and no diagnostic) — the whole path
is skipped with a stderr diagnostic, the sections are exactly those of
the document without that entry (so no row is produced for it and the
rest of the document is processed), and the run still exits with
status 0 when the rest of the pipeline succeeds. -/
theorem C2_nonmapping_methods (pre post : List (Yaml × Yaml))
    (path meta : Yaml) (hnm : (methodsResolved meta).isMap = false) :
    (build_rows (pre ++ (path, meta) :: post)).1 =
      (build_rows (pre ++ post)).1 ∧
    methodsWarning path ∈ (build_rows (pre ++ (path, meta) :: post)).2 ∧
    (∀ out noSort, pipelineOutput (pre ++ post) noSort = some out →
      runMain (some (.ok (.map (pre ++ (path, meta) :: post)))) noSort true =
        (0, some out)) := by
  have hsplit : build_rows (pre ++ (path, meta) :: post) =
      post.foldl (fun a pm => processPath a pm.1 pm.2)
        (processPath (build_rows pre) path meta) := by
    rw [build_rows, List.foldl_append, List.foldl_cons]
    rfl
  have hskip := processPath_nonmap hnm (build_rows pre) path
  have hsections : (build_rows (pre ++ (path, meta) :: post)).1 =
      (build_rows (pre ++ post)).1 := by
    rw [hsplit, hskip]
    have h2 : build_rows (pre ++ post) =
        post.foldl (fun a pm => processPath a pm.1 pm.2) (build_rows pre) := by
      rw [build_rows, List.foldl_append]
      rfl
    rw [h2]
    exact foldDoc_fst_congr post rfl
  refine ⟨hsections, ?_, ?_⟩
  · rw [hsplit, hskip]
    rw [foldDoc_snd_append post ((build_rows pre).1,
      (build_rows pre).2 ++ [methodsWarning path])]
    simp
  · intro out noSort hout
    have hpp : pipelineOutput (pre ++ (path, meta) :: post) noSort =
        some out := by
      rw [pipelineOutput, pipelineParts_congr hsections noSort]
      rw [pipelineOutput] at hout
      exact hout
    simp [runMain, parse_yaml, Except.bind, hpp]

/-- Witness for the amended C2: a one-path document whose `methods` is
the string "x". -/
theorem C2_nonmapping_methods_witness :
    (build_rows [((.str "p" : Yaml),
        Yaml.map [(.str "methods", .str "x")])]).1 = (build_rows []).1 ∧
    methodsWarning (.str "p") ∈
      (build_rows [((.str "p" : Yaml),
        Yaml.map [(.str "methods", .str "x")])]).2 ∧
    runMain (some (.ok (.map [((.str "p" : Yaml),
        Yaml.map [(.str "methods", .str "x")])]))) false true =
      (0, some "\n") := by
  have h := C2_nonmapping_methods [] []
    (.str "p") (.map [(.str "methods", .str "x")]) (by decide)
  exact ⟨h.1, h.2.1, h.2.2 "\n" false (by decide)⟩

theorem optCodeCell_spec {v : Yaml} (h : strOrFalsyB v = true) :
    optCodeCell v = some (specCell v) := by
  by_cases ht : pyTruthy v = true
  · have hstr : v.isStr = true := by
      rcases (by simpa [strOrFalsyB] using h :
          v.isStr = true ∨ pyTruthy v = false) with h' | h'
      · exact h'
      · rw [ht] at h'
        cases h'
    obtain ⟨s, rfl⟩ := isStr_iff.mp hstr
    simp [optCodeCell, specCell, codeCell, sanitizeVal, strOf, ht]
  · have ht' : pyTruthy v = false := by simpa using ht
    simp [optCodeCell, specCell, ht']

theorem notesCell_spec {s : String} : notesCell (.str s) = s := by
  by_cases h : s.isEmpty = true
  · have hs : s = "" := by
      cases s with
      | mk l =>
        cases l with
        | nil => rfl
        | cons c cs =>
          exfalso
          have hc := Char.utf8Size_pos c
          simp [String.isEmpty, String.endPos, String.utf8ByteSize,
            String.Pos.ext_iff] at h
          omega
    subst hs
    simp [notesCell, pyTruthy, pyStr]
  · simp [notesCell, pyTruthy, h, pyStr]

theorem locationsCell_spec (l : Option String) :
    locationsCell l = specLocCell l := by
  cases l with
  | none => rfl
  | some s => rfl

theorem renderRowLine_spec {r : Row} (hp : r.path.isStr = true)
    (ho : strOrFalsyB r.owner = true) (he : strOrFalsyB r.endpoint_name = true)
    (hb : strOrFalsyB r.backend_class = true) (hn : ∃ s, r.notes = .str s) :
    renderRowLine r = some (specRowLine r) := by
  obtain ⟨p, hpath⟩ := isStr_iff.mp hp
  obtain ⟨ns, hnotes⟩ := hn
  have hpc : codeCell r.path = some ("`" ++ sanitizeStr (strOf r.path) ++ "`") := by
    rw [hpath]
    rfl
  rw [renderRowLine, hpc, optCodeCell_spec ho, optCodeCell_spec he,
    optCodeCell_spec hb]
  show some _ = some _
  rw [Option.some.injEq]
  rw [show notesCell r.notes = strOf r.notes from by rw [hnotes]; exact notesCell_spec]
  rw [locationsCell_spec]
  apply string_data_inj
  simp [specRowLine, pyJoin, String.data_append, bool_to_yesno]

theorem mapOpt_eq_map {f : α → Option β} {g : α → β} :
    ∀ {l : List α}, (∀ x ∈ l, f x = some (g x)) →
      mapOpt f l = some (l.map g) := by
  intro l
  induction l with
  | nil => intro _; rfl
  | cons x xs ih =>
    intro h
    rw [mapOpt, h x (by simp), ih (fun y hy => h y (by simp [hy]))]
    rfl

/-- C9: for every renderable section the renderer emits the header row
with exactly the nine fixed column labels in order, the delimiter row,
and one data row per sorted row in which the region-aware and absolute
flags render as "Yes"/"No", the owner, endpoint-name and backend-class
fields are wrapped in inline code markup only when non-empty, the
locations field is wrapped only when a non-empty joined string is
present, and notes render verbatim with the empty string as default. -/
theorem C9_render (sec : Yaml) (rows : List Row)
    (h : ∀ r ∈ rows, r.path.isStr = true ∧ strOrFalsyB r.owner = true ∧
      strOrFalsyB r.endpoint_name = true ∧
      strOrFalsyB r.backend_class = true ∧ r.notes.isStr = true) :
    headerRow = "| " ++ pyJoin " | " specLabels ++ " |" ∧
    ∃ sorted, pySortRows rows = some sorted ∧
      render_section sec rows = some (pyJoin "\n"
        (["### " ++ pyStr sec, "", headerRow, dividerRow] ++
          sorted.map specRowLine)) := by
  refine ⟨by decide, ?_⟩
  have hstr : ∀ r ∈ rows, r.path.isStr = true := fun r hr => (h r hr).1
  have hsort := pySortRows_of_str hstr
  refine ⟨pySort rowLt rows, hsort, ?_⟩
  have hmap : mapOpt renderRowLine (pySort rowLt rows) =
      some ((pySort rowLt rows).map specRowLine) := by
    apply mapOpt_eq_map
    intro r hr
    have hr' : r ∈ rows := (pySort_perm rowLt rows).subset hr
    obtain ⟨h1, h2, h3, h4, h5⟩ := h r hr'
    exact renderRowLine_spec h1 h2 h3 h4 (isStr_iff.mp h5)
  rw [render_section, hsort]
  show (do
    let rowLines ← mapOpt renderRowLine (pySort rowLt rows)
    some (pyJoin "\n" (["### " ++ pyStr sec, "", headerRow, dividerRow] ++
      rowLines))) = _
  rw [hmap]
  rfl

/-- Witness for C9 at the concrete two-row section. -/
theorem C9_render_witness :
    headerRow = "| " ++ pyJoin " | " specLabels ++ " |" ∧
    ∃ sorted, pySortRows c3Rows = some sorted ∧
      render_section (.str "S") c3Rows = some (pyJoin "\n"
        (["### " ++ pyStr (.str "S"), "", headerRow, dividerRow] ++
          sorted.map specRowLine)) :=
  C9_render (.str "S") c3Rows (by decide)
